import Mathlib

/-!
Verification of the workspace codebase-synchronization engine of an editor
extension.  The development shallowly embeds the relevant TypeScript modules:

* `src/integrations/indexing/listeners.ts` (`MerkleTreeNode`: `buildHashes`,
  `toTreeNodes`, `toLeafNodesMap`, `extension`),
* `src/integrations/indexing/workspace-sync.ts` (`WorkspaceSync.canSync`,
  `WorkspaceSync.retrieveDivergingFiles`),
* `src/integrations/indexing/sync.ts` (`CodebaseIndexer.sync`,
  `CodebaseIndexer.traverseWorkspaces` and its upload queue),
* `src/integrations/encryption/path-obfuscator.ts` (`PathObfuscator`).

IO-performing primitives (file reads, SHA-256, HMAC, AES-GCM, the network)
are modelled as explicit function parameters; strings are Lean `String`s
(character lists at the splitting level).  Mutation in the TypeScript classes
is modelled by explicit state passing.
-/

/-! ## Merkle tree node (`listeners.ts`, lines 355-505)

`TreeNodeType` and `TreeNode` come from `indexing/types.ts`. -/

inductive TreeNodeType where
  | file
  | dir
deriving DecidableEq, Repr

/-- A `MerkleTreeNode` as in `listeners.ts`: `path`, `type`, the mutable
`excluded` flag (initially `false`), the mutable `calculatedHash` (initially
`null`, i.e. `none`), and the `children` array. -/
inductive MerkleTreeNode where
  | mk (path : String) (type : TreeNodeType) (excluded : Bool)
       (calculatedHash : Option String) (children : List MerkleTreeNode)

def MerkleTreeNode.path : MerkleTreeNode → String
  | .mk p _ _ _ _ => p

def MerkleTreeNode.type : MerkleTreeNode → TreeNodeType
  | .mk _ ty _ _ _ => ty

def MerkleTreeNode.excluded : MerkleTreeNode → Bool
  | .mk _ _ ex _ _ => ex

def MerkleTreeNode.calculatedHash : MerkleTreeNode → Option String
  | .mk _ _ _ h _ => h

def MerkleTreeNode.children : MerkleTreeNode → List MerkleTreeNode
  | .mk _ _ _ _ cs => cs

/-- The `hash` getter of `MerkleTreeNode`.  In the source it throws when
`calculatedHash` is `null`; the model totalises it with `""`.  All uses below
are guarded so that the `""` default is never consulted on built trees. -/
def MerkleTreeNode.hashD (t : MerkleTreeNode) : String :=
  t.calculatedHash.getD ""

/-- Concatenation of a list of strings (the incremental `hasher.update` calls
of `buildHashes` concatenate their inputs before digesting). -/
def strJoin : List String → String
  | [] => ""
  | s :: rest => s ++ strJoin rest

/-- The comparator `(a, b) => a.path.localeCompare(b.path)` used by
`this.children.sort` in `buildHashes`. -/
def pathLe (a b : MerkleTreeNode) : Prop := a.path ≤ b.path

instance : DecidableRel pathLe := fun a b =>
  inferInstanceAs (Decidable (a.path ≤ b.path))

instance : IsTotal MerkleTreeNode pathLe := ⟨fun a b => le_total a.path b.path⟩

instance : IsTrans MerkleTreeNode pathLe := ⟨fun _ _ _ h1 h2 => le_trans h1 h2⟩

/-- Model of `this.children.sort((a, b) => a.path.localeCompare(b.path))`. -/
def sortChildren (cs : List MerkleTreeNode) : List MerkleTreeNode :=
  List.insertionSort pathLe cs

/-- The byte string fed to the directory hasher in `buildHashes`: the node's
own path, then for every non-excluded child (in sorted order) the child's
path followed by the child's hash. -/
def dirHashInput (p : String) (sorted : List MerkleTreeNode) : String :=
  p ++ strJoin ((sorted.filter (fun c => !c.excluded)).map
    (fun c => c.path ++ c.hashD))

mutual

/-- Model of `MerkleTreeNode.buildHashes` (`listeners.ts` lines 377-413).

`fileHash` models `generateFileHash`: it returns the SHA-256 hex digest of
the file's content, or `none` when the read fails or the content is binary
(in which case the node is flagged `excluded`).  `H` models the SHA-256 hex
digest used for directory nodes. -/
def buildHashes (fileHash : String → Option String) (H : String → String) :
    MerkleTreeNode → MerkleTreeNode
  | .mk p ty ex ch cs =>
    match ty with
    | .file =>
      match fileHash p with
      | none => .mk p .file true ch cs
      | some h => .mk p .file ex (some h) cs
    | .dir =>
      let sorted := sortChildren (buildHashesList fileHash H cs)
      .mk p .dir ex (some (H (dirHashInput p sorted))) sorted

/-- The `for (const child of this.children) await child.buildHashes()` loop. -/
def buildHashesList (fileHash : String → Option String) (H : String → String) :
    List MerkleTreeNode → List MerkleTreeNode
  | [] => []
  | c :: rest => buildHashes fileHash H c :: buildHashesList fileHash H rest

end

/-- A flat `TreeNode` projection (`indexing/types.ts`). -/
structure TreeNode where
  id : String
  parent_id : Option String
  type : TreeNodeType
deriving DecidableEq, Repr

mutual

/-- Model of `MerkleTreeNode.toTreeNodes` (`listeners.ts` lines 440-448): yield this
node's projection, then recurse into every non-excluded child passing this
node's hash as the parent id. -/
def toTreeNodes (pid : Option String) : MerkleTreeNode → List TreeNode
  | .mk p ty ex ch cs =>
    ⟨(MerkleTreeNode.mk p ty ex ch cs).hashD, pid, ty⟩ ::
      toTreeNodesList (some (MerkleTreeNode.mk p ty ex ch cs).hashD) cs

/-- The `for (const child of this.children) { if (child.excluded) continue;
yield* child.toTreeNodes(this.hash) }` loop. -/
def toTreeNodesList (pid : Option String) : List MerkleTreeNode → List TreeNode
  | [] => []
  | c :: rest =>
    (if c.excluded then [] else toTreeNodes pid c) ++ toTreeNodesList pid rest

end

mutual

/-- The list of nodes visited by the `toTreeNodes` traversal, in emission
order (one ghost node per yielded `TreeNode`). -/
def visitedNodes : MerkleTreeNode → List MerkleTreeNode
  | .mk p ty ex ch cs =>
    MerkleTreeNode.mk p ty ex ch cs :: visitedNodesList cs

def visitedNodesList : List MerkleTreeNode → List MerkleTreeNode
  | [] => []
  | c :: rest =>
    (if c.excluded then [] else visitedNodes c) ++ visitedNodesList rest

end

/-- Association-list lookup mirroring JavaScript `Map.prototype.get`. -/
def assocGet {β : Type} (m : List (String × β)) (k : String) : Option β :=
  (m.find? (fun kv => kv.1 = k)).map (fun kv => kv.2)

/-- Association-list update mirroring JavaScript `Map.prototype.set`: an
existing key keeps its position and gets the new value, a new key is
appended (insertion order). -/
def assocSet {β : Type} (m : List (String × β)) (k : String) (v : β) :
    List (String × β) :=
  if m.any (fun kv => kv.1 = k) then
    m.map (fun kv => if kv.1 = k then (k, v) else kv)
  else
    m ++ [(k, v)]

mutual

/-- The inner `dfs` of `MerkleTreeNode.toLeafNodesMap` (`listeners.ts` lines
454-473): insert non-excluded file nodes keyed by their hash, then recurse
into non-excluded children. -/
def leafDfs (m : List (String × MerkleTreeNode)) :
    MerkleTreeNode → List (String × MerkleTreeNode)
  | .mk p ty ex ch cs =>
    let node := MerkleTreeNode.mk p ty ex ch cs
    let m1 := if ty = .file && !ex then assocSet m node.hashD node else m
    leafDfsList m1 cs

def leafDfsList (m : List (String × MerkleTreeNode)) :
    List MerkleTreeNode → List (String × MerkleTreeNode)
  | [] => m
  | c :: rest => leafDfsList (if c.excluded then m else leafDfs m c) rest

end

/-- Model of `MerkleTreeNode.toLeafNodesMap`. -/
def toLeafNodesMap (t : MerkleTreeNode) : List (String × MerkleTreeNode) :=
  leafDfs [] t

mutual

/-- The non-excluded file nodes in the order `toLeafNodesMap`'s dfs inserts
them (a ghost companion of `leafDfs` used to state the overwrite law). -/
def fileVisitOrder : MerkleTreeNode → List MerkleTreeNode
  | .mk p ty ex ch cs =>
    (if ty = .file && !ex then [MerkleTreeNode.mk p ty ex ch cs] else []) ++
      fileVisitOrderList cs

def fileVisitOrderList : List MerkleTreeNode → List MerkleTreeNode
  | [] => []
  | c :: rest =>
    (if c.excluded then [] else fileVisitOrder c) ++ fileVisitOrderList rest

end

/-! ## File extension accessor (`listeners.ts` lines 422-433)

The accessor delegates to Node's `path.extname`, which is modelled below
(posix rules: the extension runs from the last dot of the final path
component, unless that dot is the component's first character; `".."` has no
extension). -/

/-- The final path component (the characters after the last `'/'`). -/
def afterLastSlash (l : List Char) : List Char :=
  (l.reverse.takeWhile (fun c => c ≠ '/')).reverse

/-- Node `path.extname` on a single path component. -/
def extnameBase (base : List Char) : List Char :=
  if base = ['.', '.'] then []
  else
    let tailLen := (base.reverse.takeWhile (fun c => c ≠ '.')).length
    if tailLen = base.length then []
    else if base.length - tailLen - 1 = 0 then []
    else base.drop (base.length - tailLen - 1)

/-- Node `path.extname`. -/
def extname (p : String) : String :=
  String.mk (extnameBase (afterLastSlash p.data))

/-- The `extension` getter of `MerkleTreeNode`: `null` for non-file nodes,
`null` when `extname` is empty, otherwise `extname` with its leading dot
stripped (`ext.slice(1)`).  The source does not lowercase. -/
def MerkleTreeNode.extension (t : MerkleTreeNode) : Option String :=
  if t.type ≠ .file then none
  else
    let ext := extname t.path
    if ext = "" then none
    else some (ext.drop 1)

/-! ## Workspace sync client (`workspace-sync.ts`) -/

/-- A persisted sync-status record (`indexing/types.ts`). -/
structure SyncStatus where
  hash : String
  ts : Int
deriving DecidableEq, Repr

/-- The remote diff-check response (`indexing/types.ts`). -/
structure CodebaseSyncStatus where
  diverging_files : List String
  synced : Bool
deriving DecidableEq, Repr

/-- The state of a `WorkspaceSync` instance together with its persisted
workspace-scoped storage: `codebaseId` (set by `init`, `null` on failure),
the current `branchHash`, and the stored `lastSyncStatus` record. -/
structure WorkspaceSyncState where
  codebaseId : Option String
  branchHash : String
  lastSyncStatus : Option SyncStatus
deriving DecidableEq, Repr

/-- Model of `WorkspaceSync.canSync` (`workspace-sync.ts` lines 143-155), with
`Date.now()` passed explicitly as `now` (milliseconds). -/
def canSync (st : WorkspaceSyncState) (now : Int) : Bool :=
  match st.codebaseId with
  | none => false
  | some _ =>
    match st.lastSyncStatus with
    | none => true
    | some lastSyncStatus =>
      let tenMinutesAgo := now - 1000 * 60 * 10
      decide (lastSyncStatus.ts < tenMinutesAgo) ||
        decide (lastSyncStatus.hash ≠ st.branchHash)

/-- Observable outcome of one invocation of `retrieveDivergingFiles`:
whether the Merkle tree was built, whether the remote diff-check endpoint
was called, the sync-status record persisted (if any), and the file nodes
yielded by the generator, in order. -/
structure RetrieveResult where
  builtTree : Bool
  remoteCalled : Bool
  savedStatus : Option SyncStatus
  yielded : List MerkleTreeNode

/-- Model of `WorkspaceSync.retrieveDivergingFiles` (`workspace-sync.ts` lines
43-69).  The tree built by `MerkleTreeWalker.buildTree` and the remote
response of `checkSyncedCodebase` are passed as parameters (`merkleTree`,
`remote`); both are only consulted past the throttle guard. -/
def retrieveDivergingFiles (st : WorkspaceSyncState) (now : Int)
    (forceIndex : Bool) (merkleTree : MerkleTreeNode)
    (remote : CodebaseSyncStatus) : RetrieveResult :=
  if !canSync st now && !forceIndex then
    ⟨false, false, none, []⟩
  else
    let syncStatus : SyncStatus := ⟨st.branchHash, now⟩
    if remote.synced then
      ⟨true, true, some syncStatus, []⟩
    else
      let hashToNodeMap := toLeafNodesMap merkleTree
      ⟨true, true, some syncStatus,
        remote.diverging_files.filterMap (fun nodeHash =>
          assocGet hashToNodeMap nodeHash)⟩

/-! ## Orchestrator upload queue (`sync.ts` lines 325-423)

The `PQueue` has concurrency 1, so queued upload tasks run one after the
other in insertion order.  Each diverging file is added to the queue exactly
once; a task either succeeds (progress incremented) or fails (timeout,
network error or non-202 response — `uploadArtifact` throws unless the
response status is 202), in which case the attached `.catch` handler runs.
`files` pairs each queued file's content hash with its upload outcome. -/

structure CycleState where
  processedCount : Nat
  retryMapping : List (String × Nat)
  attempts : List String
deriving DecidableEq, Repr

/-- JavaScript truthiness of `retryMapping.get(hash)` (`undefined` and `0`
are falsy). -/
def jsTruthy : Option Nat → Bool
  | none => false
  | some n => n ≠ 0

/-- The `.catch` handler attached to each queued upload task (`sync.ts`
lines 401-414): if the hash's retry counter is truthy and at least 3, count
the file as processed and stop; otherwise increment (or initialise) the
counter.  No retry is scheduled. -/
def uploadCatch (retryMapping : List (String × Nat)) (processedCount : Nat)
    (fileHash : String) : List (String × Nat) × Nat :=
  let retriesCount := assocGet retryMapping fileHash
  if jsTruthy retriesCount && decide (retriesCount.getD 0 ≥ 3) then
    (retryMapping, processedCount + 1)
  else if jsTruthy retriesCount then
    (assocSet retryMapping fileHash (retriesCount.getD 0 + 1), processedCount)
  else
    (assocSet retryMapping fileHash 1, processedCount)

/-- One queued upload task: run the upload, on success increment
`processedCount`, on failure run the `.catch` handler.  The `attempts` log
records every task execution (one per `fileSyncQueue.add`). -/
def fileSyncQueueStep (st : CycleState) (task : String × Bool) : CycleState :=
  let st1 : CycleState :=
    { st with attempts := st.attempts ++ [task.1] }
  if task.2 then
    { st1 with processedCount := st1.processedCount + 1 }
  else
    let mp := uploadCatch st1.retryMapping st1.processedCount task.1
    { st1 with retryMapping := mp.1, processedCount := mp.2 }

/-- The whole upload phase of one sync cycle: every diverging file is queued
exactly once (`fileSyncQueue.add` inside the `for` loops), and the
concurrency-1 queue runs the tasks in order. -/
def runFileSyncQueue (files : List (String × Bool)) : CycleState :=
  files.foldl fileSyncQueueStep ⟨0, [], []⟩

/-! ## Orchestrator cycle lock (`sync.ts` lines 309-423) -/

/-- The mutable `CodebaseIndexer` state relevant to the cycle lock. -/
structure IndexerState where
  syncLocked : Bool
deriving DecidableEq, Repr

/-- Model of `CodebaseIndexer.traverseWorkspaces` (`sync.ts` lines 325-423), with the
diverging-file collection outcome passed as `retrieval` (`Except` models a
rejected promise from `retrieveDivergingFiles`, e.g. a network error in
`checkSyncedCodebase`).  Returns the updated state and either `()` or the
escaping exception.  The lock is cleared on the empty-union early return and
after the queue drains (`onIdle`); there is no `finally`, so on an exception
the lock stays set. -/
def traverseWorkspaces (st : IndexerState)
    (retrieval : Except String (List String)) :
    IndexerState × Except String Unit :=
  if st.syncLocked then
    (st, .ok ())
  else
    match retrieval with
    | .error e => (⟨true⟩, .error e)
    | .ok divergingFiles =>
      if divergingFiles.length = 0 then (⟨false⟩, .ok ())
      else (⟨false⟩, .ok ())

/-- Model of `CodebaseIndexer.sync` (`sync.ts` lines 309-319): delegate to
`traverseWorkspaces`, catching and logging any exception.  The returned
`Bool` is true when an error was caught and logged. -/
def syncCycle (st : IndexerState) (retrieval : Except String (List String)) :
    IndexerState × Bool :=
  let res := traverseWorkspaces st retrieval
  match res.2 with
  | .error _ => (res.1, true)
  | .ok _ => (res.1, false)

/-! ## Path obfuscator (`path-obfuscator.ts`)

Path splitting and joining are modelled on the character lists underlying
the JavaScript strings.  The per-segment cipher (`encryptSegment` /
`decryptSegment`, i.e. AES-256-GCM plus base64url) is abstracted into the
function parameters `enc` and `dec`. -/

/-- JavaScript `path.split(/([\x2f.])/)`: split at every `'/'` or `'.'`,
keeping the one-character delimiters as their own list entries.  The result
alternates (possibly empty) delimiter-free segments with delimiters and both
starts and ends with a segment. -/
def splitKeepDelims : List Char → List (List Char)
  | [] => [[]]
  | c :: rest =>
    if c = '/' || c = '.' then
      [] :: [c] :: splitKeepDelims rest
    else
      match splitKeepDelims rest with
      | [] => [[c]]
      | s :: ss => (c :: s) :: ss

/-- JavaScript `str.split(d)` for a one-character separator `d`. -/
def splitOnChar (d : Char) : List Char → List (List Char)
  | [] => [[]]
  | c :: rest =>
    if c = d then
      [] :: splitOnChar d rest
    else
      match splitOnChar d rest with
      | [] => [[c]]
      | s :: ss => (c :: s) :: ss

/-- JavaScript `parts.join(d)` for a one-character separator `d`. -/
def joinWithChar (d : Char) : List (List Char) → List Char
  | [] => []
  | [s] => s
  | s :: rest => s ++ d :: joinWithChar d rest

/-- Model of `PathObfuscator.obfuscatePath` (`path-obfuscator.ts` lines 46-52): split
keeping the delimiters, keep `'/'` and `'.'` parts verbatim, encrypt every
other part, and concatenate (`join('')`). -/
def obfuscatePath (enc : List Char → List Char) (path : List Char) :
    List Char :=
  ((splitKeepDelims path).map (fun p =>
    if p = ['/'] || p = ['.'] then p else enc p)).flatten

/-- Model of `PathObfuscator.revealPath` (`path-obfuscator.ts` lines 54-67): split on
`'/'`, split each block on `'.'`, decrypt each piece, and rejoin with the
original delimiters. -/
def revealPath (dec : List Char → List Char) (obfuscated : List Char) :
    List Char :=
  joinWithChar '/' ((splitOnChar '/' obfuscated).map (fun segmentBlock =>
    joinWithChar '.' ((splitOnChar '.' segmentBlock).map dec)))

/-! ### Segment encryption (`path-obfuscator.ts` lines 76-88)

Bytes are modelled as natural numbers.  `hmac` models
`createHmac('sha256', key).update(segment).digest()`, `cipherEnc key iv seg`
models the AES-256-GCM run `cipher.update(segment) ++ cipher.final() ++
cipher.getAuthTag()`, and `b64` models `Buffer.toString('base64url')`.  All
three Node primitives are deterministic functions of their inputs; the only
random source of the class, `randomBytes`, is consumed solely by `init` when
generating a fresh key.  To make that observable, the model threads the
ambient entropy pool `entropy` through `encryptSegment`, whose body —
translated from the source — never consumes it. -/

def NONCE_LEN : Nat := 6

/-- Model of `PathObfuscator.nonceFor`: the keyed digest of the segment's plaintext,
truncated to the cipher's nonce length. -/
def nonceFor (hmac : List Nat → String → List Nat) (key : List Nat)
    (segment : String) : List Nat :=
  (hmac key segment).take NONCE_LEN

/-- Model of `PathObfuscator.encryptSegment`: derive the nonce from the segment, pad
it with six zero bytes to form the IV, run the cipher, and base64url-encode
nonce plus ciphertext.  `entropy` is the ambient randomness pool, which the
body never reads. -/
def encryptSegment (hmac : List Nat → String → List Nat)
    (cipherEnc : List Nat → List Nat → String → List Nat)
    (b64 : List Nat → String) (key : List Nat) (entropy : List Nat)
    (segment : String) : String :=
  let nonce6 := nonceFor hmac key segment
  let iv := nonce6 ++ List.replicate 6 0
  let cipherText := cipherEnc key iv segment
  b64 (nonce6 ++ cipherText)

/-! ## Derived definitions used in the statements and proofs -/

/-- The per-block decryption step of `revealPath`: split a slash-delimited
block on `'.'`, decrypt each piece, rejoin with `'.'`. -/
def decBlock (dec : List Char → List Char) (segmentBlock : List Char) :
    List Char :=
  joinWithChar '.' ((splitOnChar '.' segmentBlock).map dec)

/-- A toy segment cipher for the round-trip witness: a character
substitution whose images avoid the delimiters. -/
def witnessEnc (l : List Char) : List Char :=
  l.map (fun c =>
    if c = 'a' then '0' else if c = 'b' then '1' else
    if c = 'c' then '2' else if c = 'd' then '3' else
    if c = 't' then '4' else if c = 's' then '5' else c)

/-- The inverse substitution of `witnessEnc`. -/
def witnessDec (l : List Char) : List Char :=
  l.map (fun c =>
    if c = '0' then 'a' else if c = '1' then 'b' else
    if c = '2' then 'c' else if c = '3' then 'd' else
    if c = '4' then 't' else if c = '5' then 's' else c)

/-- The length contribution of one file child (path `r`) to its parent's
hash input under the file-hash oracle `fs`: zero when the child is excluded
(`fs r = none`), path length plus hash length otherwise. -/
def fileContrib (fs : String → Option String) (r : String) : Nat :=
  match fs r with
  | none => 0
  | some h => r.length + h.length

/-- A flat directory of file nodes, one per path in `cs`. -/
def flatDir (p : String) (cs : List String) : MerkleTreeNode :=
  .mk p .dir false none (cs.map (fun r => .mk r .file false none []))

mutual

/-- Two trees that differ only in the order in which each directory's
children were inserted during the walk (same paths, types, flags and file
contents; children permuted level by level). -/
inductive Reord : MerkleTreeNode → MerkleTreeNode → Prop where
  | mk : ∀ (p : String) (ty : TreeNodeType) (ex : Bool) (ch : Option String)
      (cs1 mid cs2 : List MerkleTreeNode), ReordAll cs1 mid →
      mid.Perm cs2 →
      Reord (.mk p ty ex ch cs1) (.mk p ty ex ch cs2)

/-- Pointwise `Reord` on child lists. -/
inductive ReordAll : List MerkleTreeNode → List MerkleTreeNode → Prop where
  | nil : ReordAll [] []
  | cons : ∀ {a b : MerkleTreeNode} {as2 bs : List MerkleTreeNode},
      Reord a b → ReordAll as2 bs → ReordAll (a :: as2) (b :: bs)

end

mutual

/-- Well-formed walker output: file nodes have no children, and the
children of each directory have pairwise distinct paths (directory entries
have distinct names). -/
def WFTree : MerkleTreeNode → Bool
  | .mk _ ty _ _ cs =>
    match ty with
    | .file => cs.isEmpty
    | .dir => decide ((cs.map MerkleTreeNode.path).Nodup) && WFTreeList cs

def WFTreeList : List MerkleTreeNode → Bool
  | [] => true
  | c :: rest => WFTree c && WFTreeList rest

end

/-- The shape of `splitKeepDelims`'s output: delimiter-free (possibly empty)
segments alternating with single-character delimiters, starting and ending
with a segment. -/
inductive AltParts : List (List Char) → Prop where
  | single (t : List Char) (h1 : '/' ∉ t) (h2 : '.' ∉ t) : AltParts [t]
  | cons (t : List Char) (d : Char) (rest : List (List Char))
      (h1 : '/' ∉ t) (h2 : '.' ∉ t) (hd : d = '/' ∨ d = '.')
      (hr : AltParts rest) : AltParts (t :: [d] :: rest)

/-! ## Association-list lemmas shared by the queue and leaf-map proofs -/

lemma assocGet_cons {β : Type} (a : String × β) (m : List (String × β))
    (k : String) :
    assocGet (a :: m) k = if a.1 = k then some a.2 else assocGet m k := by
  by_cases h : a.1 = k <;> simp [assocGet, List.find?, h]

lemma assocGet_mapSubst_ne {β : Type} (m : List (String × β)) (k k' : String)
    (v : β) (h : k' ≠ k) :
    assocGet (m.map (fun kv => if kv.1 = k then (k, v) else kv)) k' =
      assocGet m k' := by
  induction m with
  | nil => rfl
  | cons a m ih =>
    by_cases ha : a.1 = k
    · have h1 : a.1 ≠ k' := by rw [ha]; exact Ne.symm h
      simp only [List.map_cons, if_pos ha]
      rw [assocGet_cons, assocGet_cons, if_neg (Ne.symm h), if_neg h1]
      exact ih
    · simp only [List.map_cons, if_neg ha]
      rw [assocGet_cons, assocGet_cons]
      by_cases hk : a.1 = k' <;> simp [hk, ih]

lemma assocGet_append_single_ne {β : Type} (m : List (String × β))
    (k k' : String) (v : β) (h : k' ≠ k) :
    assocGet (m ++ [(k, v)]) k' = assocGet m k' := by
  induction m with
  | nil =>
    simp only [List.nil_append]
    rw [assocGet_cons]
    simp [Ne.symm h, assocGet]
  | cons a m ih =>
    rw [List.cons_append, assocGet_cons, assocGet_cons]
    by_cases hk : a.1 = k' <;> simp [hk, ih]

lemma assocGet_assocSet_ne {β : Type} (m : List (String × β)) (k k' : String)
    (v : β) (h : k' ≠ k) :
    assocGet (assocSet m k v) k' = assocGet m k' := by
  by_cases hm : m.any (fun kv => kv.1 = k)
  · rw [show assocSet m k v =
        m.map (fun kv => if kv.1 = k then (k, v) else kv) by
      simp [assocSet, hm]]
    exact assocGet_mapSubst_ne m k k' v h
  · rw [show assocSet m k v = m ++ [(k, v)] by simp [assocSet, hm]]
    exact assocGet_append_single_ne m k k' v h

lemma assocGet_mapSubst_self {β : Type} (m : List (String × β)) (k : String)
    (v : β) (hm : m.any (fun kv => kv.1 = k)) :
    assocGet (m.map (fun kv => if kv.1 = k then (k, v) else kv)) k =
      some v := by
  induction m with
  | nil => simp at hm
  | cons a m ih =>
    by_cases ha : a.1 = k
    · simp only [List.map_cons, if_pos ha]
      rw [assocGet_cons]
      simp
    · have hm' : m.any (fun kv => kv.1 = k) := by
        simp only [List.any_cons, Bool.or_eq_true, decide_eq_true_eq] at hm
        rcases hm with hm | hm
        · exact absurd hm ha
        · simpa using hm
      simp only [List.map_cons, if_neg ha]
      rw [assocGet_cons, if_neg ha]
      exact ih hm'

lemma assocGet_none_of_not_any {β : Type} (m : List (String × β)) (k : String)
    (hm : ¬ m.any (fun kv => kv.1 = k)) : assocGet m k = none := by
  induction m with
  | nil => rfl
  | cons a m ih =>
    simp only [List.any_cons, Bool.or_eq_true, not_or] at hm
    rw [assocGet_cons, if_neg (by simpa using hm.1)]
    exact ih (by simpa using hm.2)

lemma assocGet_assocSet_self {β : Type} (m : List (String × β)) (k : String)
    (v : β) : assocGet (assocSet m k v) k = some v := by
  by_cases hm : m.any (fun kv => kv.1 = k)
  · rw [show assocSet m k v =
        m.map (fun kv => if kv.1 = k then (k, v) else kv) by
      simp [assocSet, hm]]
    exact assocGet_mapSubst_self m k v hm
  · rw [show assocSet m k v = m ++ [(k, v)] by simp [assocSet, hm]]
    induction m with
    | nil =>
      simp only [List.nil_append]
      rw [assocGet_cons]
      simp
    | cons a m ih =>
      simp only [List.any_cons, Bool.or_eq_true, not_or] at hm
      rw [List.cons_append, assocGet_cons, if_neg (by simpa using hm.1)]
      exact ih (by simpa using hm.2)

/-! ## Claim C4: throttle behavior of `retrieveDivergingFiles` -/

/-- C4: `retrieveDivergingFiles(false)` yields nothing, builds no tree,
calls no remote endpoint and persists nothing whenever `canSync` is false;
`canSync` is true exactly when a codebase id is known and either no prior
sync status is recorded, or its timestamp is older than the 10-minute
window, or its branch hash differs from the current one;
`retrieveDivergingFiles(true)` always proceeds regardless of throttle
state. -/
theorem c4_throttle (st : WorkspaceSyncState) (now : Int) :
    (canSync st now = false →
      ∀ merkleTree remote,
        retrieveDivergingFiles st now false merkleTree remote =
          ⟨false, false, none, []⟩)
  ∧ (∀ merkleTree remote,
      (retrieveDivergingFiles st now true merkleTree remote).builtTree = true
      ∧ (retrieveDivergingFiles st now true merkleTree remote).remoteCalled
          = true)
  ∧ (canSync st now = true ↔
      st.codebaseId ≠ none ∧
        (st.lastSyncStatus = none ∨
          ∃ last, st.lastSyncStatus = some last ∧
            (last.ts < now - 1000 * 60 * 10 ∨ last.hash ≠ st.branchHash))) := by
  refine ⟨?_, ?_, ?_⟩
  · intro h merkleTree remote
    simp [retrieveDivergingFiles, h]
  · intro merkleTree remote
    by_cases hs : remote.synced <;>
      simp [retrieveDivergingFiles, hs]
  · obtain ⟨cid, bh, last⟩ := st
    cases cid with
    | none => simp [canSync]
    | some cid =>
      cases last with
      | none => simp [canSync]
      | some last => simp [canSync]

/-- Witness for C4 at a concrete state: no codebase id is known, so a
non-forced call returns the empty, side-effect-free result. -/
theorem c4_throttle_witness :
    retrieveDivergingFiles ⟨none, "branch", none⟩ 0 false
      (.mk "file:///w" .dir false none []) ⟨[], true⟩ =
      ⟨false, false, none, []⟩ :=
  (c4_throttle ⟨none, "branch", none⟩ 0).1 rfl
    (.mk "file:///w" .dir false none []) ⟨[], true⟩

/-! ## Claim C5: persists fresh status and yields matched diverging nodes -/

/-- C5: past the throttle, `retrieveDivergingFiles` persists a fresh
sync-status record (current branch hash, current time) whether or not the
remote reports the codebase as synced, and when the remote reports
`synced: false` it yields exactly the nodes whose content hash appears both
in `diverging_files` and in the tree's leaf-hash map, silently skipping
reported hashes with no local match. -/
theorem c5_persist_and_yield (st : WorkspaceSyncState) (now : Int)
    (forceIndex : Bool) (merkleTree : MerkleTreeNode)
    (remote : CodebaseSyncStatus)
    (hproceed : (canSync st now || forceIndex) = true) :
    (retrieveDivergingFiles st now forceIndex merkleTree remote).savedStatus
      = some ⟨st.branchHash, now⟩
  ∧ (remote.synced = false →
      (retrieveDivergingFiles st now forceIndex merkleTree remote).yielded
        = remote.diverging_files.filterMap (fun nodeHash =>
            assocGet (toLeafNodesMap merkleTree) nodeHash))
  ∧ (remote.synced = false → ∀ n,
      n ∈ (retrieveDivergingFiles st now forceIndex merkleTree
            remote).yielded ↔
        ∃ nodeHash, nodeHash ∈ remote.diverging_files ∧
          assocGet (toLeafNodesMap merkleTree) nodeHash = some n) := by
  have hguard : (!canSync st now && !forceIndex) = false := by
    rw [← Bool.not_or, hproceed]
    rfl
  by_cases hs : remote.synced
  · refine ⟨?_, ?_, ?_⟩
    · simp [retrieveDivergingFiles, hguard, hs]
    · intro h; rw [hs] at h; cases h
    · intro h; rw [hs] at h; cases h
  · refine ⟨?_, ?_, ?_⟩
    · simp [retrieveDivergingFiles, hguard, hs]
    · intro _
      simp [retrieveDivergingFiles, hguard, hs]
    · intro _ n
      simp [retrieveDivergingFiles, hguard, hs, List.mem_filterMap]

/-- Witness for C5, the spec's scenario: the remote reports
`{synced: false, diverging_files: ["hash1", "hash2"]}` and the local leaf
map only contains `hash1`; exactly the `hash1` node is yielded and a fresh
status record is persisted. -/
theorem c5_persist_and_yield_witness :
    (retrieveDivergingFiles ⟨some "id", "branch", none⟩ 0 false
        (.mk "file:///w" .dir false (some "root")
          [.mk "file:///w/a.ts" .file false (some "hash1") []])
        ⟨["hash1", "hash2"], false⟩).savedStatus = some ⟨"branch", 0⟩
  ∧ (retrieveDivergingFiles ⟨some "id", "branch", none⟩ 0 false
        (.mk "file:///w" .dir false (some "root")
          [.mk "file:///w/a.ts" .file false (some "hash1") []])
        ⟨["hash1", "hash2"], false⟩).yielded =
      [.mk "file:///w/a.ts" .file false (some "hash1") []] := by
  have h := c5_persist_and_yield ⟨some "id", "branch", none⟩ 0 false
    (.mk "file:///w" .dir false (some "root")
      [.mk "file:///w/a.ts" .file false (some "hash1") []])
    ⟨["hash1", "hash2"], false⟩ rfl
  refine ⟨h.1, ?_⟩
  rw [h.2.1 rfl]
  rfl

/-! ## Claim C8: segment obfuscation is deterministic -/

/-- C8: obfuscating the same segment twice with the same key yields the same
ciphertext.  `encryptSegment` never consumes the ambient randomness pool —
its nonce is derived deterministically from the segment's plaintext via the
keyed hash, truncated to the cipher's nonce length — so its output is a pure
function of the key and the segment. -/
theorem c8_encryptSegment_deterministic
    (hmac : List Nat → String → List Nat)
    (cipherEnc : List Nat → List Nat → String → List Nat)
    (b64 : List Nat → String) (key : List Nat)
    (entropy1 entropy2 : List Nat) (segment : String) :
    encryptSegment hmac cipherEnc b64 key entropy1 segment =
      encryptSegment hmac cipherEnc b64 key entropy2 segment
  ∧ encryptSegment hmac cipherEnc b64 key entropy1 segment =
      b64 ((hmac key segment).take NONCE_LEN ++
        cipherEnc key
          ((hmac key segment).take NONCE_LEN ++ List.replicate 6 0)
          segment) :=
  ⟨rfl, rfl⟩

/-! ## Claim C3: exception in the traversal leaves the cycle lock stuck -/

/-- C3 (code bug): when the diverging-file collection rejects, `sync`
catches and logs the exception (it never propagates), but `syncLocked` is
never cleared — `traverseWorkspaces` has no `finally` and its two unlock
sites are both skipped — so every later `sync()` call hits the
`if (this.syncLocked) return` guard and no new cycle can ever start.  This
contradicts the claim (and the spec's stated intent) that the lock is
released so future triggers can retry. -/
theorem c3_lock_never_released :
    (syncCycle ⟨false⟩ (.error "fetch failed")).2 = true
  ∧ (syncCycle ⟨false⟩ (.error "fetch failed")).1.syncLocked = true
  ∧ traverseWorkspaces ⟨true⟩ (.ok ["file:///w/a.ts"]) = (⟨true⟩, .ok ())
  ∧ (syncCycle ⟨true⟩ (.ok ["file:///w/a.ts"])).1.syncLocked = true :=
  ⟨rfl, rfl, rfl, rfl⟩

/-! ## Claim C1: upload-failure handling in the orchestrator's queue -/

lemma foldl_queue_attempts (files : List (String × Bool)) :
    ∀ st : CycleState,
      (files.foldl fileSyncQueueStep st).attempts =
        st.attempts ++ files.map Prod.fst := by
  induction files with
  | nil => intro st; simp
  | cons f rest ih =>
    intro st
    rw [List.foldl_cons, ih]
    have hstep : (fileSyncQueueStep st f).attempts = st.attempts ++ [f.1] := by
      obtain ⟨h, ok⟩ := f
      cases ok <;> simp [fileSyncQueueStep, uploadCatch]
    rw [hstep, List.map_cons, List.append_assoc]
    rfl

lemma fileSyncQueueStep_retry_other (st : CycleState) (f : String × Bool)
    (k : String) (hk : f.1 ≠ k) :
    assocGet (fileSyncQueueStep st f).retryMapping k =
      assocGet st.retryMapping k := by
  obtain ⟨h, ok⟩ := f
  cases ok with
  | true => simp [fileSyncQueueStep]
  | false =>
    simp only [fileSyncQueueStep, uploadCatch]
    by_cases h1 : jsTruthy (assocGet st.retryMapping h) &&
        decide (Option.getD (assocGet st.retryMapping h) 0 ≥ 3)
    · simp [h1]
    · simp only [h1, Bool.false_eq_true, if_false]
      by_cases h2 : jsTruthy (assocGet st.retryMapping h)
      · simp [h2, assocGet_assocSet_ne _ _ _ _ (Ne.symm hk)]
      · simp [h2, assocGet_assocSet_ne _ _ _ _ (Ne.symm hk)]

lemma foldl_queue_retry_other (files : List (String × Bool)) :
    ∀ st : CycleState, (∀ f ∈ files, f.1 ≠ k) →
      assocGet (files.foldl fileSyncQueueStep st).retryMapping k =
        assocGet st.retryMapping k := by
  induction files with
  | nil => intro st _; rfl
  | cons f rest ih =>
    intro st hk
    rw [List.foldl_cons, ih _ (fun g hg => hk g (List.mem_cons_of_mem f hg)),
      fileSyncQueueStep_retry_other st f k (hk f (List.mem_cons_self f rest))]

lemma foldl_queue_fresh (files : List (String × Bool)) :
    ∀ st : CycleState, (files.map Prod.fst).Nodup →
      (∀ f ∈ files, assocGet st.retryMapping f.1 = none) →
      (files.foldl fileSyncQueueStep st).processedCount =
          st.processedCount + (files.filter (fun f => f.2)).length
      ∧ ∀ h, (h, false) ∈ files →
          assocGet (files.foldl fileSyncQueueStep st).retryMapping h =
            some 1 := by
  induction files with
  | nil => intro st _ _; simp
  | cons f rest ih =>
    intro st hnd hfresh
    obtain ⟨fh, ok⟩ := f
    rw [List.map_cons, List.nodup_cons] at hnd
    cases ok with
    | true =>
      have hstep : fileSyncQueueStep st (fh, true) =
          { st with processedCount := st.processedCount + 1,
                    attempts := st.attempts ++ [fh] } := by
        simp [fileSyncQueueStep]
      rw [List.foldl_cons, hstep]
      obtain ⟨hproc, hmap⟩ :=
        ih { st with processedCount := st.processedCount + 1,
                     attempts := st.attempts ++ [fh] } hnd.2
          (fun g hg => hfresh g (List.mem_cons_of_mem _ hg))
      refine ⟨?_, ?_⟩
      · rw [hproc]
        simp only [List.filter_cons]
        norm_num [Nat.add_assoc, Nat.add_comm 1]
      · intro h hmem
        rcases List.mem_cons.mp hmem with heq | hmem'
        · simp at heq
        · exact hmap h hmem'
    | false =>
      have hget : assocGet st.retryMapping fh = none :=
        hfresh (fh, false) (List.mem_cons_self _ _)
      have hstep : fileSyncQueueStep st (fh, false) =
          { st with retryMapping := assocSet st.retryMapping fh 1,
                    attempts := st.attempts ++ [fh] } := by
        simp [fileSyncQueueStep, uploadCatch, hget, jsTruthy]
      rw [List.foldl_cons, hstep]
      obtain ⟨hproc, hmap⟩ :=
        ih { st with retryMapping := assocSet st.retryMapping fh 1,
                     attempts := st.attempts ++ [fh] } hnd.2
          (by
            intro g hg
            have hne : g.1 ≠ fh := by
              intro hcontr
              have hmem1 : g.1 ∈ rest.map Prod.fst :=
                List.mem_map_of_mem Prod.fst hg
              exact hnd.1 (hcontr ▸ hmem1)
            show assocGet (assocSet st.retryMapping fh 1) g.1 = none
            rw [assocGet_assocSet_ne _ _ _ _ hne]
            exact hfresh g (List.mem_cons_of_mem _ hg))
      refine ⟨?_, ?_⟩
      · rw [hproc]
        simp [List.filter_cons]
      · intro h hmem
        rcases List.mem_cons.mp hmem with heq | hmem'
        · have hh : h = fh := congrArg Prod.fst heq
          subst hh
          have hother : ∀ g ∈ rest, g.1 ≠ h := by
            intro g hg hcontr
            have hmem1 : g.1 ∈ rest.map Prod.fst :=
              List.mem_map_of_mem Prod.fst hg
            exact hnd.1 (hcontr ▸ hmem1)
          rw [foldl_queue_retry_other rest _ hother]
          exact assocGet_assocSet_self _ _ _
        · exact hmap h hmem'

/-- C1 counterexample: a diverging file whose upload fails (e.g. times out)
is attempted exactly once in the cycle — the `.catch` handler records a
retry counter of 1 but schedules no retry — so it is never re-attempted
"until it has failed 3 attempts" and it is not counted toward the processed
count, contrary to the claim. -/
theorem c1_retry_counterexample :
    (runFileSyncQueue [("h", false)]).attempts.count "h" = 1
  ∧ ¬ (runFileSyncQueue [("h", false)]).attempts.count "h" = 3
  ∧ (runFileSyncQueue [("h", false)]).processedCount = 0
  ∧ (runFileSyncQueue [("h", false)]).retryMapping = [("h", 1)] := by
  refine ⟨by rfl, by decide, by rfl, by rfl⟩

/-- C1 amended: each diverging file is queued (hence attempted) exactly once
per sync cycle — the `.catch` handler only updates the per-file-hash retry
counter and never schedules another attempt.  When all queued hashes are
distinct, the processed count equals the number of successful uploads and
every failed file ends the cycle with its counter at 1, uncounted.  The
"count as processed" branch fires only when a failing hash's counter has
already reached 3, which requires the same hash to fail four times within
one cycle (possible only when distinct queued files share a content hash).
No exception escapes the cycle: the handler swallows every failure. -/
theorem c1_retry_amended (files : List (String × Bool))
    (hnodup : (files.map Prod.fst).Nodup) :
    (runFileSyncQueue files).attempts = files.map Prod.fst
  ∧ (runFileSyncQueue files).processedCount =
      (files.filter (fun f => f.2)).length
  ∧ (∀ h, (h, false) ∈ files →
      assocGet (runFileSyncQueue files).retryMapping h = some 1)
  ∧ (∀ m p h rc, assocGet m h = some rc → rc ≥ 3 →
      uploadCatch m p h = (m, p + 1)) := by
  obtain ⟨hproc, hmap⟩ :=
    foldl_queue_fresh files ⟨0, [], []⟩ hnodup (fun f _ => rfl)
  refine ⟨?_, ?_, hmap, ?_⟩
  · rw [runFileSyncQueue, foldl_queue_attempts]
    rfl
  · rw [runFileSyncQueue, hproc]
    simp
  · intro m p h rc hget hrc
    have h1 : jsTruthy (some rc) = true := by
      simp only [jsTruthy, decide_eq_true_eq]
      omega
    have h2 : decide (Option.getD (some rc) 0 ≥ 3) = true := by
      simp only [Option.getD_some, decide_eq_true_eq]
      exact hrc
    simp [uploadCatch, hget, h1, h2]
    exact hrc

/-- Witness for C1 amended, at a two-file queue where the first upload
succeeds and the second fails. -/
theorem c1_retry_amended_witness :
    (runFileSyncQueue [("a", true), ("b", false)]).attempts = ["a", "b"]
  ∧ (runFileSyncQueue [("a", true), ("b", false)]).processedCount = 1
  ∧ assocGet (runFileSyncQueue [("a", true), ("b", false)]).retryMapping "b"
      = some 1 := by
  obtain ⟨h1, h2, h3, -⟩ :=
    c1_retry_amended [("a", true), ("b", false)] (by decide)
  exact ⟨h1, h2, h3 "b" (by decide)⟩

/-! ## Claim C2: obfuscation round trip -/

lemma splitOnChar_ne_nil (d : Char) (l : List Char) : splitOnChar d l ≠ [] := by
  cases l with
  | nil => simp [splitOnChar]
  | cons c rest =>
    rw [splitOnChar]
    by_cases h : c = d
    · simp [h]
    · simp only [h, if_false]
      cases hs : splitOnChar d rest <;> simp

lemma splitOnChar_no_delim (d : Char) (l : List Char) (h : d ∉ l) :
    splitOnChar d l = [l] := by
  induction l with
  | nil => rfl
  | cons c rest ih =>
    rw [List.mem_cons, not_or] at h
    rw [splitOnChar, if_neg (fun hh => h.1 hh.symm), ih h.2]

lemma splitOnChar_append (d : Char) (l1 l2 : List Char) (h : d ∉ l1)
    {hd : List Char} {tl : List (List Char)}
    (he : splitOnChar d l2 = hd :: tl) :
    splitOnChar d (l1 ++ l2) = (l1 ++ hd) :: tl := by
  induction l1 with
  | nil => simpa using he
  | cons c l1 ih =>
    rw [List.mem_cons, not_or] at h
    rw [List.cons_append, splitOnChar, if_neg (fun hh => h.1 hh.symm),
      ih h.2]
    rfl

lemma joinWithChar_cons (d : Char) (s : List Char) (l : List (List Char))
    (h : l ≠ []) :
    joinWithChar d (s :: l) = s ++ d :: joinWithChar d l := by
  cases l with
  | nil => exact absurd rfl h
  | cons s2 l2 => rfl

lemma joinWithChar_append_head (d : Char) (x y : List Char)
    (l : List (List Char)) :
    joinWithChar d ((x ++ y) :: l) = x ++ joinWithChar d (y :: l) := by
  cases l with
  | nil => rfl
  | cons s2 l2 =>
    rw [joinWithChar_cons d (x ++ y) (s2 :: l2) (by simp),
      joinWithChar_cons d y (s2 :: l2) (by simp), List.append_assoc]

lemma joinWithChar_cons_char (d c : Char) (y : List Char)
    (l : List (List Char)) :
    joinWithChar d ((c :: y) :: l) = c :: joinWithChar d (y :: l) := by
  cases l <;> rfl

lemma revealPath_eq_decBlock (dec : List Char → List Char)
    (obfuscated : List Char) :
    revealPath dec obfuscated =
      joinWithChar '/' ((splitOnChar '/' obfuscated).map (decBlock dec)) :=
  rfl

lemma decBlock_no_dot (dec : List Char → List Char) (t : List Char)
    (h : '.' ∉ t) : decBlock dec t = dec t := by
  rw [decBlock, splitOnChar_no_delim '.' t h]
  rfl

lemma decBlock_append (dec : List Char → List Char) (t r : List Char)
    (h : '.' ∉ t) :
    decBlock dec (t ++ '.' :: r) = dec t ++ '.' :: decBlock dec r := by
  obtain ⟨hd, tl, he⟩ : ∃ hd tl, splitOnChar '.' r = hd :: tl := by
    cases hs : splitOnChar '.' r with
    | nil => exact absurd hs (splitOnChar_ne_nil '.' r)
    | cons a b => exact ⟨a, b, rfl⟩
  have hsplit : splitOnChar '.' (t ++ '.' :: r) = t :: hd :: tl := by
    have he2 : splitOnChar '.' ('.' :: r) = [] :: hd :: tl := by
      rw [splitOnChar, if_pos rfl, he]
    simpa using splitOnChar_append '.' t ('.' :: r) h he2
  rw [decBlock, hsplit, List.map_cons,
    joinWithChar_cons '.' _ _ (by simp), decBlock, he]

lemma revealPath_no_delims (dec : List Char → List Char) (t : List Char)
    (h1 : '/' ∉ t) (h2 : '.' ∉ t) : revealPath dec t = dec t := by
  rw [revealPath_eq_decBlock, splitOnChar_no_delim '/' t h1, List.map_cons]
  exact decBlock_no_dot dec t h2

lemma revealPath_slash (dec : List Char → List Char) (t o : List Char)
    (h1 : '/' ∉ t) (h2 : '.' ∉ t) :
    revealPath dec (t ++ '/' :: o) = dec t ++ '/' :: revealPath dec o := by
  obtain ⟨hd, tl, he⟩ : ∃ hd tl, splitOnChar '/' o = hd :: tl := by
    cases hs : splitOnChar '/' o with
    | nil => exact absurd hs (splitOnChar_ne_nil '/' o)
    | cons a b => exact ⟨a, b, rfl⟩
  have hsplit : splitOnChar '/' (t ++ '/' :: o) = t :: hd :: tl := by
    have he2 : splitOnChar '/' ('/' :: o) = [] :: hd :: tl := by
      rw [splitOnChar, if_pos rfl, he]
    simpa using splitOnChar_append '/' t ('/' :: o) h1 he2
  rw [revealPath_eq_decBlock, hsplit, List.map_cons,
    joinWithChar_cons '/' _ _ (by simp), decBlock_no_dot dec t h2,
    revealPath_eq_decBlock, he, List.map_cons]

lemma revealPath_dot (dec : List Char → List Char) (t o : List Char)
    (h1 : '/' ∉ t) (h2 : '.' ∉ t) :
    revealPath dec (t ++ '.' :: o) = dec t ++ '.' :: revealPath dec o := by
  obtain ⟨hd, tl, he⟩ : ∃ hd tl, splitOnChar '/' o = hd :: tl := by
    cases hs : splitOnChar '/' o with
    | nil => exact absurd hs (splitOnChar_ne_nil '/' o)
    | cons a b => exact ⟨a, b, rfl⟩
  have hne : '/' ∉ t ++ ['.'] := by
    rw [List.mem_append]
    rintro (hin | hin)
    · exact h1 hin
    · simp at hin
  have hsplit : splitOnChar '/' (t ++ '.' :: o) = (t ++ '.' :: hd) :: tl := by
    have := splitOnChar_append '/' (t ++ ['.']) o hne he
    simpa using this
  rw [revealPath_eq_decBlock, hsplit, List.map_cons,
    decBlock_append dec t hd h2, joinWithChar_append_head,
    joinWithChar_cons_char, revealPath_eq_decBlock, he, List.map_cons]

lemma splitKeepDelims_ne_nil (l : List Char) : splitKeepDelims l ≠ [] := by
  cases l with
  | nil => simp [splitKeepDelims]
  | cons c rest =>
    rw [splitKeepDelims]
    by_cases h : c = '/' || c = '.'
    · simp [h]
    · simp only [h, if_false]
      cases hs : splitKeepDelims rest <;> simp

lemma altParts_splitKeepDelims (l : List Char) :
    AltParts (splitKeepDelims l) := by
  induction l with
  | nil => exact AltParts.single [] (by simp) (by simp)
  | cons c rest ih =>
    rw [splitKeepDelims]
    by_cases h : c = '/' || c = '.'
    · rw [if_pos h]
      refine AltParts.cons [] c _ (by simp) (by simp) ?_ ih
      rcases Bool.or_eq_true .. ▸ h with h1 | h1
      · exact Or.inl (by simpa using h1)
      · exact Or.inr (by simpa using h1)
    · rw [if_neg h]
      have hc : ¬ c = '/' ∧ ¬ c = '.' := by
        constructor <;> intro hh <;> exact h (by simp [hh])
      cases hs : splitKeepDelims rest with
      | nil => exact absurd hs (splitKeepDelims_ne_nil rest)
      | cons s ss =>
        rw [hs] at ih
        cases ih with
        | single t h1 h2 =>
          refine AltParts.single (c :: s) ?_ ?_
          · rw [List.mem_cons, not_or]
            exact ⟨fun hh => hc.1 hh.symm, h1⟩
          · rw [List.mem_cons, not_or]
            exact ⟨fun hh => hc.2 hh.symm, h2⟩
        | cons t d rest2 h1 h2 hd hr =>
          refine AltParts.cons (c :: s) d rest2 ?_ ?_ hd hr
          · rw [List.mem_cons, not_or]
            exact ⟨fun hh => hc.1 hh.symm, h1⟩
          · rw [List.mem_cons, not_or]
            exact ⟨fun hh => hc.2 hh.symm, h2⟩

lemma flatten_splitKeepDelims (l : List Char) :
    (splitKeepDelims l).flatten = l := by
  induction l with
  | nil => simp [splitKeepDelims]
  | cons c rest ih =>
    rw [splitKeepDelims]
    by_cases h : c = '/' || c = '.'
    · rw [if_pos h]
      simp [ih]
    · rw [if_neg h]
      cases hs : splitKeepDelims rest with
      | nil => exact absurd hs (splitKeepDelims_ne_nil rest)
      | cons s ss =>
        rw [hs] at ih
        simpa using ih

lemma revealPath_obfuscated_parts (enc dec : List Char → List Char) :
    ∀ parts, AltParts parts →
      (∀ t ∈ parts, t ≠ ['/'] → t ≠ ['.'] →
        dec (enc t) = t ∧ '/' ∉ enc t ∧ '.' ∉ enc t) →
      revealPath dec ((parts.map (fun p =>
        if p = ['/'] || p = ['.'] then p else enc p)).flatten) =
        parts.flatten := by
  intro parts halt
  induction halt with
  | single t h1 h2 =>
    intro hseg
    have ht1 : t ≠ ['/'] := fun hh => h1 (by rw [hh]; simp)
    have ht2 : t ≠ ['.'] := fun hh => h2 (by rw [hh]; simp)
    obtain ⟨hdec, henc1, henc2⟩ :=
      hseg t (List.mem_singleton.mpr rfl) ht1 ht2
    rw [List.map_cons, List.map_nil, show (if t = ['/'] || t = ['.']
      then t else enc t) = enc t by simp [ht1, ht2]]
    simpa [revealPath_no_delims dec (enc t) henc1 henc2] using hdec
  | cons t d rest h1 h2 hd hr ih =>
    intro hseg
    have ht1 : t ≠ ['/'] := fun hh => h1 (by rw [hh]; simp)
    have ht2 : t ≠ ['.'] := fun hh => h2 (by rw [hh]; simp)
    obtain ⟨hdec, henc1, henc2⟩ :=
      hseg t (List.mem_cons_self t _) ht1 ht2
    have hseg' : ∀ t' ∈ rest, t' ≠ ['/'] → t' ≠ ['.'] →
        dec (enc t') = t' ∧ '/' ∉ enc t' ∧ '.' ∉ enc t' :=
      fun t' h' => hseg t'
        (List.mem_cons_of_mem t (List.mem_cons_of_mem [d] h'))
    have hguard : (if t = ['/'] || t = ['.'] then t else enc t) = enc t := by
      simp [ht1, ht2]
    have hdguard : (if [d] = ['/'] || [d] = ['.'] then [d] else enc [d])
        = [d] := by
      rcases hd with hh | hh <;> simp [hh]
    rw [List.map_cons, List.map_cons, hguard, hdguard, List.flatten_cons,
      List.flatten_cons, List.flatten_cons, List.flatten_cons]
    rcases hd with hh | hh <;> subst hh
    · rw [List.singleton_append, List.singleton_append,
        revealPath_slash dec (enc t) _ henc1 henc2, hdec, ih hseg']
    · rw [List.singleton_append, List.singleton_append,
        revealPath_dot dec (enc t) _ henc1 henc2, hdec, ih hseg']

/-- C2: for every path string, `revealPath` inverts `obfuscatePath` exactly,
provided the per-segment cipher round-trips (`decryptSegment` inverts
`encryptSegment`) and ciphertexts contain no `'/'` or `'.'` characters
(base64url output).  `obfuscatePath` encrypts each non-delimiter part of the
split independently and keeps the delimiters verbatim; `revealPath` splits
on `'/'`, then on `'.'`, decrypts each piece, and rejoins with the original
delimiters. -/
theorem c2_obfuscation_round_trip (enc dec : List Char → List Char)
    (path : String)
    (h : ∀ t ∈ splitKeepDelims path.data, t ≠ ['/'] → t ≠ ['.'] →
      dec (enc t) = t ∧ '/' ∉ enc t ∧ '.' ∉ enc t) :
    revealPath dec (obfuscatePath enc path.data) = path.data := by
  rw [obfuscatePath,
    revealPath_obfuscated_parts enc dec (splitKeepDelims path.data)
      (altParts_splitKeepDelims path.data) h,
    flatten_splitKeepDelims]

/-- Witness for C2 on the path `"ab/cd.ts"` with the toy cipher. -/
theorem c2_obfuscation_round_trip_witness :
    revealPath witnessDec (obfuscatePath witnessEnc "ab/cd.ts".data) =
      "ab/cd.ts".data :=
  c2_obfuscation_round_trip witnessEnc witnessDec "ab/cd.ts" (by decide)

/-! ## Claim C9: the `extension` accessor -/

/-- C9 counterexample: the accessor does not lowercase.  For a file node
with path `"file:///w/a.TXT"` the code returns `"TXT"`, not the `"txt"` the
claim's "lowercase, dot-stripped file extension" requires. -/
theorem c9_extension_counterexample :
    MerkleTreeNode.extension (.mk "file:///w/a.TXT" .file false none []) =
      some "TXT"
  ∧ MerkleTreeNode.extension (.mk "file:///w/a.TXT" .file false none []) ≠
      some "txt" := by
  constructor
  · rfl
  · intro h
    rw [show MerkleTreeNode.extension
        (.mk "file:///w/a.TXT" .file false none []) = some "TXT" from rfl]
      at h
    simp at h

lemma takeWhile_ne_head (e b : List Char) (he : '.' ∉ e) :
    (e ++ '.' :: b).takeWhile (fun c => c ≠ '.') = e := by
  induction e with
  | nil => simp [List.takeWhile]
  | cons c e ih =>
    rw [List.mem_cons, not_or] at he
    rw [List.cons_append, List.takeWhile_cons]
    simp only [decide_eq_true_eq]
    rw [if_pos (fun hh => he.1 hh.symm), ih he.2]

/-- C9 amended: `extension` is `none` for directory nodes, for files whose
final path component contains no dot, and for dotfiles — files whose final
path component's only dot is its leading character, such as `.gitignore`
(Node's `path.extname` leading-dot rule); for a file whose final path
component is `b ++ "." ++ e` (with `b` nonempty and `e` a nonempty dot-free
suffix) it returns `e` verbatim — dot-stripped but case-preserved, not
lowercased. -/
theorem c9_extension_amended :
    (∀ p ex ch cs, MerkleTreeNode.extension (.mk p .dir ex ch cs) = none)
  ∧ (∀ p ex ch cs, '.' ∉ afterLastSlash p.data →
      MerkleTreeNode.extension (.mk p .file ex ch cs) = none)
  ∧ (∀ p ex ch cs r, afterLastSlash p.data = '.' :: r → '.' ∉ r →
      MerkleTreeNode.extension (.mk p .file ex ch cs) = none)
  ∧ (∀ p ex ch cs b e, afterLastSlash p.data = b ++ '.' :: e →
      b ≠ [] → e ≠ [] → '.' ∉ e →
      MerkleTreeNode.extension (.mk p .file ex ch cs) =
        some (String.mk e)) := by
  refine ⟨?_, ?_, ?_, ?_⟩
  · intro p ex ch cs
    simp [MerkleTreeNode.extension, MerkleTreeNode.type]
  · intro p ex ch cs hnd
    have hbase : extnameBase (afterLastSlash p.data) = [] := by
      rw [extnameBase]
      have hne : afterLastSlash p.data ≠ ['.', '.'] := by
        intro hh
        exact hnd (by rw [hh]; simp)
      rw [if_neg hne]
      have hall : (afterLastSlash p.data).reverse.takeWhile
          (fun c => c ≠ '.') = (afterLastSlash p.data).reverse := by
        apply List.takeWhile_eq_self_iff.mpr
        intro c hc
        have : c ∈ afterLastSlash p.data := List.mem_reverse.mp hc
        simp only [decide_eq_true_eq]
        intro hh
        exact hnd (hh ▸ this)
      rw [show ((afterLastSlash p.data).reverse.takeWhile
          (fun c => c ≠ '.')).length = (afterLastSlash p.data).length from by
        rw [hall, List.length_reverse]]
      simp
    simp [MerkleTreeNode.extension, MerkleTreeNode.type,
      MerkleTreeNode.path, extname, hbase]
  · intro p ex ch cs r hsplit hdot
    have hbase : extnameBase (afterLastSlash p.data) = [] := by
      rw [extnameBase, hsplit]
      have hne : ('.' :: r) ≠ ['.', '.'] := by
        intro hh
        have hr : r = ['.'] := List.cons.injEq .. ▸ hh |>.2
        exact hdot (by rw [hr]; exact List.mem_singleton.mpr rfl)
      rw [if_neg hne]
      have hrev : ('.' :: r).reverse = r.reverse ++ '.' :: [] := by
        simp
      have htw : (('.' :: r).reverse.takeWhile
          (fun c => c ≠ '.')).length = r.length := by
        rw [hrev, takeWhile_ne_head r.reverse []
          (fun hh => hdot (List.mem_reverse.mp hh))]
        exact List.length_reverse r
      rw [htw]
      have hlen : ('.' :: r).length = r.length + 1 := List.length_cons '.' r
      rw [if_neg (by omega), if_pos (by omega)]
    simp [MerkleTreeNode.extension, MerkleTreeNode.type,
      MerkleTreeNode.path, extname, hbase]
  · intro p ex ch cs b e hsplit hb he hdot
    have hb' : 0 < b.length := List.length_pos.mpr hb
    have he' : 0 < e.length := List.length_pos.mpr he
    have hbase : extnameBase (afterLastSlash p.data) = '.' :: e := by
      rw [extnameBase, hsplit]
      have hne : b ++ '.' :: e ≠ ['.', '.'] := by
        intro hh
        have := congrArg List.length hh
        simp at this
        omega
      rw [if_neg hne]
      have hrev : (b ++ '.' :: e).reverse =
          e.reverse ++ '.' :: b.reverse := by
        simp
      have htw : ((b ++ '.' :: e).reverse.takeWhile
          (fun c => c ≠ '.')).length = e.length := by
        rw [hrev, takeWhile_ne_head e.reverse b.reverse
          (fun hh => hdot (List.mem_reverse.mp hh))]
        exact List.length_reverse e
      rw [htw]
      have hlen : (b ++ '.' :: e).length = b.length + 1 + e.length := by
        simp
        omega
      rw [if_neg (by omega)]
      have hidx : (b ++ '.' :: e).length - e.length - 1 = b.length := by
        omega
      rw [if_neg (by omega), hidx, List.drop_left b ('.' :: e)]
    have hextn : extname p = String.mk ('.' :: e) := by
      rw [extname, hbase]
    have hne2 : String.mk ('.' :: e) ≠ "" := by
      intro hh
      cases String.ext_iff.mp hh
    simp only [MerkleTreeNode.extension, MerkleTreeNode.type,
      MerkleTreeNode.path]
    rw [if_neg (fun hcontr => hcontr rfl), hextn, if_neg hne2]
    congr 1
    apply String.ext_iff.mpr
    rw [String.data_drop]
    rfl

/-- Witness for C9 amended: `"file:///w/src/main.TXT"` yields the
case-preserved `"TXT"`, and the dotfile `"file:///w/.gitignore"` yields
`none`. -/
theorem c9_extension_amended_witness :
    MerkleTreeNode.extension
      (.mk "file:///w/src/main.TXT" .file false none []) =
      some (String.mk ['T', 'X', 'T'])
  ∧ MerkleTreeNode.extension
      (.mk "file:///w/.gitignore" .file false none []) = none :=
  ⟨c9_extension_amended.2.2.2 "file:///w/src/main.TXT" false none []
    ['m', 'a', 'i', 'n'] ['T', 'X', 'T'] (by decide) (by decide) (by decide)
    (by decide),
   c9_extension_amended.2.2.1 "file:///w/.gitignore" false none []
    ['g', 'i', 't', 'i', 'g', 'n', 'o', 'r', 'e'] (by decide) (by decide)⟩

/-! ## Claim C6: exclusion correctness

Nested-inductive recursions are handled by strong induction on `sizeOf`. -/

lemma visitedNodes_excluded_bound : ∀ n : Nat,
    (∀ t : MerkleTreeNode, sizeOf t < n → t.excluded = false →
      ∀ x ∈ visitedNodes t, x.excluded = false)
  ∧ (∀ cs : List MerkleTreeNode, sizeOf cs < n →
      ∀ x ∈ visitedNodesList cs, x.excluded = false) := by
  intro n
  induction n with
  | zero =>
    exact ⟨fun t ht => absurd ht (Nat.not_lt_zero _),
      fun cs hcs => absurd hcs (Nat.not_lt_zero _)⟩
  | succ n ih =>
    constructor
    · intro t ht hex x hx
      obtain ⟨p, ty, ex, ch, cs⟩ := t
      rw [visitedNodes] at hx
      rcases List.mem_cons.mp hx with rfl | hx'
      · exact hex
      · refine ih.2 cs ?_ x hx'
        have hs := MerkleTreeNode.mk.sizeOf_spec p ty ex ch cs
        omega
    · intro cs hcs x hx
      cases cs with
      | nil => rw [visitedNodesList] at hx; cases hx
      | cons c rest =>
        have hs := List.cons.sizeOf_spec c rest
        rw [visitedNodesList] at hx
        rcases List.mem_append.mp hx with h1 | h2
        · by_cases hc : c.excluded = true
          · rw [if_pos hc] at h1; cases h1
          · rw [if_neg hc] at h1
            exact ih.1 c (by omega) (by simpa using hc) x h1
        · exact ih.2 rest (by omega) x h2

lemma toTreeNodes_from_visited_bound : ∀ n : Nat,
    (∀ (t : MerkleTreeNode) (pid : Option String), sizeOf t < n →
      ∀ tn ∈ toTreeNodes pid t, ∃ x ∈ visitedNodes t,
        tn.id = x.hashD ∧ tn.type = x.type)
  ∧ (∀ (cs : List MerkleTreeNode) (pid : Option String), sizeOf cs < n →
      ∀ tn ∈ toTreeNodesList pid cs, ∃ x ∈ visitedNodesList cs,
        tn.id = x.hashD ∧ tn.type = x.type) := by
  intro n
  induction n with
  | zero =>
    exact ⟨fun t pid ht => absurd ht (Nat.not_lt_zero _),
      fun cs pid hcs => absurd hcs (Nat.not_lt_zero _)⟩
  | succ n ih =>
    constructor
    · intro t pid ht tn htn
      obtain ⟨p, ty, ex, ch, cs⟩ := t
      rw [toTreeNodes] at htn
      rcases List.mem_cons.mp htn with rfl | htn'
      · exact ⟨MerkleTreeNode.mk p ty ex ch cs,
          by rw [visitedNodes]; exact List.mem_cons_self _ _,
          rfl, rfl⟩
      · have hs := MerkleTreeNode.mk.sizeOf_spec p ty ex ch cs
        obtain ⟨x, hx, hids⟩ := ih.2 cs _ (by omega) tn htn'
        refine ⟨x, ?_, hids⟩
        rw [visitedNodes]
        exact List.mem_cons_of_mem _ hx
    · intro cs pid hcs tn htn
      cases cs with
      | nil => rw [toTreeNodesList] at htn; cases htn
      | cons c rest =>
        have hs := List.cons.sizeOf_spec c rest
        rw [toTreeNodesList] at htn
        rcases List.mem_append.mp htn with h1 | h2
        · by_cases hc : c.excluded = true
          · rw [if_pos hc] at h1; cases h1
          · rw [if_neg hc] at h1
            obtain ⟨x, hx, hids⟩ := ih.1 c pid (by omega) tn h1
            refine ⟨x, ?_, hids⟩
            rw [visitedNodesList, if_neg hc]
            exact List.mem_append_left _ hx
        · obtain ⟨x, hx, hids⟩ := ih.2 rest pid (by omega) tn h2
          refine ⟨x, ?_, hids⟩
          rw [visitedNodesList]
          exact List.mem_append_right _ hx

lemma assocSet_values {β : Type} (P : β → Prop) (m : List (String × β))
    (k : String) (v : β) (hm : ∀ kv ∈ m, P kv.2) (hv : P v) :
    ∀ kv ∈ assocSet m k v, P kv.2 := by
  intro kv hkv
  rw [assocSet] at hkv
  by_cases hany : m.any (fun kv => kv.1 = k)
  · rw [if_pos hany] at hkv
    obtain ⟨kv0, hkv0, heq⟩ := List.mem_map.mp hkv
    by_cases h0 : kv0.1 = k
    · rw [if_pos h0] at heq
      rw [← heq]
      exact hv
    · rw [if_neg h0] at heq
      rw [← heq]
      exact hm kv0 hkv0
  · rw [if_neg hany] at hkv
    rcases List.mem_append.mp hkv with h1 | h2
    · exact hm kv h1
    · rw [List.mem_singleton.mp h2]
      exact hv

lemma leafDfs_values_bound : ∀ n : Nat,
    (∀ (t : MerkleTreeNode) (m : List (String × MerkleTreeNode)),
      sizeOf t < n → (∀ kv ∈ m, kv.2.excluded = false) →
      ∀ kv ∈ leafDfs m t, kv.2.excluded = false)
  ∧ (∀ (cs : List MerkleTreeNode) (m : List (String × MerkleTreeNode)),
      sizeOf cs < n → (∀ kv ∈ m, kv.2.excluded = false) →
      ∀ kv ∈ leafDfsList m cs, kv.2.excluded = false) := by
  intro n
  induction n with
  | zero =>
    exact ⟨fun t m ht => absurd ht (Nat.not_lt_zero _),
      fun cs m hcs => absurd hcs (Nat.not_lt_zero _)⟩
  | succ n ih =>
    constructor
    · intro t m ht hm kv hkv
      obtain ⟨p, ty, ex, ch, cs⟩ := t
      rw [leafDfs] at hkv
      have hs := MerkleTreeNode.mk.sizeOf_spec p ty ex ch cs
      by_cases hcond : (ty = TreeNodeType.file && !ex) = true
      · rw [if_pos hcond] at hkv
        have hexf : ex = false := by
          rcases Bool.and_eq_true .. |>.mp hcond with ⟨-, h2⟩
          simpa using h2
        refine ih.2 cs _ (by omega) ?_ kv hkv
        exact assocSet_values (fun x => x.excluded = false) m
          (MerkleTreeNode.mk p ty ex ch cs).hashD
          (MerkleTreeNode.mk p ty ex ch cs) hm hexf
      · rw [if_neg hcond] at hkv
        exact ih.2 cs m (by omega) hm kv hkv
    · intro cs m hcs hm kv hkv
      cases cs with
      | nil => rw [leafDfsList] at hkv; exact hm kv hkv
      | cons c rest =>
        have hs := List.cons.sizeOf_spec c rest
        rw [leafDfsList] at hkv
        by_cases hc : c.excluded = true
        · rw [if_pos hc] at hkv
          exact ih.2 rest m (by omega) hm kv hkv
        · rw [if_neg hc] at hkv
          refine ih.2 rest _ (by omega) ?_ kv hkv
          exact ih.1 c m (by omega) hm

lemma buildHashesList_eq_map (fileHash : String → Option String)
    (H : String → String) (cs : List MerkleTreeNode) :
    buildHashesList fileHash H cs = cs.map (buildHashes fileHash H) := by
  induction cs with
  | nil => rfl
  | cons c rest ih => rw [buildHashesList, ih, List.map_cons]

lemma strJoin_length (l : List String) :
    (strJoin l).length = (l.map String.length).sum := by
  induction l with
  | nil => rfl
  | cons s rest ih => rw [strJoin, String.length_append, List.map_cons,
      List.sum_cons, ih]

lemma dirHashInput_length (p : String) (sorted : List MerkleTreeNode) :
    (dirHashInput p sorted).length = p.length +
      (((sorted.filter (fun c => !c.excluded)).map
        (fun c => c.path ++ c.hashD)).map String.length).sum := by
  rw [dirHashInput, String.length_append, strJoin_length]

lemma sorted_contrib_sum (cs : List MerkleTreeNode) :
    ((((sortChildren cs).filter (fun c => !c.excluded)).map
        (fun c => c.path ++ c.hashD)).map String.length).sum =
      (((cs.filter (fun c => !c.excluded)).map
        (fun c => c.path ++ c.hashD)).map String.length).sum := by
  have hperm : (sortChildren cs).Perm cs := List.perm_insertionSort pathLe cs
  rw [List.map_map, List.map_map]
  exact List.Perm.sum_eq
    (List.Perm.map _ (hperm.filter (fun c => !c.excluded)))

lemma file_children_contrib (fs : String → Option String)
    (H : String → String) (cs : List String) :
    ((((cs.map (fun r => MerkleTreeNode.mk r .file false none [])).map
        (buildHashes fs H)).filter (fun c => !c.excluded)).map
      (fun c => (c.path ++ c.hashD).length)).sum =
      (cs.map (fileContrib fs)).sum := by
  induction cs with
  | nil => rfl
  | cons r rest ih =>
    rw [List.map_cons, List.map_cons, List.map_cons, List.sum_cons, ← ih]
    cases hr : fs r with
    | none =>
      rw [show buildHashes fs H (.mk r .file false none []) =
          .mk r .file true none [] by rw [buildHashes, hr]]
      rw [List.filter_cons, if_neg (by simp [MerkleTreeNode.excluded])]
      rw [show fileContrib fs r = 0 by rw [fileContrib, hr]]
      simp
    | some h =>
      rw [show buildHashes fs H (.mk r .file false none []) =
          .mk r .file false (some h) [] by rw [buildHashes, hr]]
      rw [List.filter_cons, if_pos (by simp [MerkleTreeNode.excluded])]
      rw [List.map_cons, List.sum_cons]
      rw [show fileContrib fs r = r.length + h.length by
        rw [fileContrib, hr]]
      congr 1
      simp [MerkleTreeNode.path, MerkleTreeNode.hashD,
        MerkleTreeNode.calculatedHash, String.length_append]

lemma fileContrib_le (fs : String → Option String) (q : String) (r : String) :
    fileContrib (fun x => if x = q then none else fs x) r ≤
      fileContrib fs r := by
  by_cases hr : r = q
  · rw [show fileContrib (fun x => if x = q then none else fs x) r = 0 by
      rw [fileContrib]; simp [hr]]
    exact Nat.zero_le _
  · rw [show fileContrib (fun x => if x = q then none else fs x) r =
        fileContrib fs r by rw [fileContrib, fileContrib]; simp [hr]]

lemma fileContrib_sum_lt (fs : String → Option String) (q hq : String)
    (hfsq : fs q = some hq) (hhq : hq ≠ "") (cs : List String)
    (hmem : q ∈ cs) :
    ((cs.map (fileContrib (fun x => if x = q then none else fs x))).sum <
      (cs.map (fileContrib fs)).sum) := by
  induction cs with
  | nil => cases hmem
  | cons r rest ih =>
    rw [List.map_cons, List.map_cons, List.sum_cons, List.sum_cons]
    rcases List.mem_cons.mp hmem with heq | hmem'
    · have h1 : fileContrib (fun x => if x = q then none else fs x) r = 0 := by
        rw [fileContrib]
        simp [show r = q from heq.symm]
      have h2 : fileContrib fs r = q.length + hq.length := by
        rw [show r = q from heq.symm, fileContrib, hfsq]
      have h3 : 0 < hq.length := by
        cases hlen : hq.length with
        | zero =>
          exact absurd (String.ext_iff.mpr
            (List.length_eq_zero.mp (by simpa using hlen))) hhq
        | succ k => omega
      have h4 : (rest.map
          (fileContrib (fun x => if x = q then none else fs x))).sum ≤
          (rest.map (fileContrib fs)).sum :=
        List.sum_le_sum (fun i _ => fileContrib_le fs q i)
      omega
    · have h4 : fileContrib (fun x => if x = q then none else fs x) r ≤
          fileContrib fs r := fileContrib_le fs q r
      have h5 := ih hmem'
      omega

lemma buildHashes_dir (fs : String → Option String) (H : String → String)
    (p : String) (ex : Bool) (ch : Option String)
    (cs : List MerkleTreeNode) :
    buildHashes fs H (.mk p .dir ex ch cs) =
      .mk p .dir ex
        (some (H (dirHashInput p
          (sortChildren (cs.map (buildHashes fs H))))))
        (sortChildren (cs.map (buildHashes fs H))) := by
  rw [buildHashes, buildHashesList_eq_map]

/-- C6: after `buildHashes`, (a) `toTreeNodes` visits only non-excluded
nodes (given a non-excluded root) and every emitted `TreeNode` projects a
visited non-excluded node; (b) the leaf-hash map never contains an excluded
node; (c) every child of a directory is hashed independently of its siblings
(the hashed children are exactly the independently built children, up to the
sort); (d) a directory's hash digests only its own path and its sorted
non-excluded children's (path, hash) pairs, and — for an injective digest —
excluding one readable file child (here: making `fs` report it unreadable or
binary) changes the parent directory's hash. -/
theorem c6_exclusion_correctness (fs : String → Option String)
    (H : String → String) (t : MerkleTreeNode) (pid : Option String)
    (p q hq : String) (cs : List String)
    (hroot : t.excluded = false) (hinj : Function.Injective H)
    (hq1 : fs q = some hq) (hqne : hq ≠ "") (hqcs : q ∈ cs) :
    (∀ x ∈ visitedNodes t, x.excluded = false)
  ∧ (∀ tn ∈ toTreeNodes pid t, ∃ x ∈ visitedNodes t,
      x.excluded = false ∧ tn.id = x.hashD ∧ tn.type = x.type)
  ∧ (∀ kv ∈ toLeafNodesMap t, kv.2.excluded = false)
  ∧ (∀ p2 ex ch cs2,
      ((buildHashes fs H (.mk p2 .dir ex ch cs2)).children).Perm
        (cs2.map (buildHashes fs H)))
  ∧ (∀ p2 ex ch cs2,
      (buildHashes fs H (.mk p2 .dir ex ch cs2)).calculatedHash =
        some (H (dirHashInput p2
          (sortChildren (cs2.map (buildHashes fs H))))))
  ∧ (buildHashes fs H (flatDir p cs)).hashD ≠
      (buildHashes (fun x => if x = q then none else fs x) H
        (flatDir p cs)).hashD := by
  refine ⟨?_, ?_, ?_, ?_, ?_, ?_⟩
  · exact (visitedNodes_excluded_bound (sizeOf t + 1)).1 t
      (Nat.lt_succ_self _) hroot
  · intro tn htn
    obtain ⟨x, hx, hids⟩ := (toTreeNodes_from_visited_bound
      (sizeOf t + 1)).1 t pid (Nat.lt_succ_self _) tn htn
    exact ⟨x, hx, (visitedNodes_excluded_bound (sizeOf t + 1)).1 t
      (Nat.lt_succ_self _) hroot x hx, hids⟩
  · intro kv hkv
    exact (leafDfs_values_bound (sizeOf t + 1)).1 t []
      (Nat.lt_succ_self _) (fun kv0 hkv0 => absurd hkv0 (List.not_mem_nil _))
      kv hkv
  · intro p2 ex ch cs2
    rw [buildHashes_dir]
    exact List.perm_insertionSort pathLe _
  · intro p2 ex ch cs2
    rw [buildHashes_dir]
    rfl
  · have hlen : ∀ g : String → Option String,
        ((dirHashInput p (sortChildren
          ((cs.map (fun r => MerkleTreeNode.mk r .file false none [])).map
            (buildHashes g H))))).length =
          p.length + (cs.map (fileContrib g)).sum := by
      intro g
      rw [dirHashInput_length, sorted_contrib_sum, List.map_map]
      have := file_children_contrib g H cs
      rw [← this]
      rfl
    have hsum := fileContrib_sum_lt fs q hq hq1 hqne cs hqcs
    rw [flatDir, buildHashes_dir, buildHashes_dir]
    intro heq
    have heqH : H (dirHashInput p (sortChildren
        ((cs.map (fun r => MerkleTreeNode.mk r .file false none [])).map
          (buildHashes fs H)))) =
        H (dirHashInput p (sortChildren
          ((cs.map (fun r => MerkleTreeNode.mk r .file false none [])).map
            (buildHashes (fun x => if x = q then none else fs x) H)))) := by
      simpa [MerkleTreeNode.hashD, MerkleTreeNode.calculatedHash] using heq
    have := congrArg String.length (hinj heqH)
    rw [hlen fs, hlen (fun x => if x = q then none else fs x)] at this
    omega

/-- Witness for C6 at a concrete tree and file-hash oracle, with the
identity as the (injective) digest. -/
theorem c6_exclusion_correctness_witness :
    (buildHashes
        (fun x => if x = "file:///w/a" then some "ha" else some "hx")
        (fun s => s)
        (flatDir "file:///w" ["file:///w/a", "file:///w/b"])).hashD ≠
      (buildHashes
        (fun x => if x = "file:///w/a" then none
          else if x = "file:///w/a" then some "ha" else some "hx")
        (fun s => s)
        (flatDir "file:///w" ["file:///w/a", "file:///w/b"])).hashD :=
  (c6_exclusion_correctness
    (fun x => if x = "file:///w/a" then some "ha" else some "hx")
    (fun s => s) (.mk "file:///w" .dir false none []) none
    "file:///w" "file:///w/a" "ha" ["file:///w/a", "file:///w/b"]
    rfl (fun a b h => h) (by decide) (by decide) (by decide)).2.2.2.2.2

/-! ## Claim C10: the leaf map holds at most one node per content hash -/

lemma assocSet_keys {β : Type} (m : List (String × β)) (k : String) (v : β)
    (hnd : (m.map Prod.fst).Nodup) :
    ((assocSet m k v).map Prod.fst).Nodup := by
  rw [assocSet]
  by_cases hany : m.any (fun kv => kv.1 = k)
  · rw [if_pos hany]
    have hkeys : (m.map (fun kv => if kv.1 = k then (k, v) else kv)).map
        Prod.fst = m.map Prod.fst := by
      rw [List.map_map]
      apply List.map_congr_left
      intro kv _
      by_cases hkv : kv.1 = k
      · simp [hkv]
      · simp [hkv]
    rw [hkeys]
    exact hnd
  · rw [if_neg hany]
    have hk : k ∉ m.map Prod.fst := by
      intro hmem
      obtain ⟨kv, hkv, hfst⟩ := List.mem_map.mp hmem
      exact hany (List.any_eq_true.mpr ⟨kv, hkv, by simp [hfst]⟩)
    simp only [List.map_append, List.map_cons, List.map_nil]
    rw [List.nodup_append]
    exact ⟨hnd, List.nodup_singleton k,
      by simpa [List.disjoint_singleton] using hk⟩

lemma leafDfs_keys_bound : ∀ n : Nat,
    (∀ (t : MerkleTreeNode) (m : List (String × MerkleTreeNode)),
      sizeOf t < n → (m.map Prod.fst).Nodup →
      ((leafDfs m t).map Prod.fst).Nodup)
  ∧ (∀ (cs : List MerkleTreeNode) (m : List (String × MerkleTreeNode)),
      sizeOf cs < n → (m.map Prod.fst).Nodup →
      ((leafDfsList m cs).map Prod.fst).Nodup) := by
  intro n
  induction n with
  | zero =>
    exact ⟨fun t m ht => absurd ht (Nat.not_lt_zero _),
      fun cs m hcs => absurd hcs (Nat.not_lt_zero _)⟩
  | succ n ih =>
    constructor
    · intro t m ht hm
      obtain ⟨p, ty, ex, ch, cs⟩ := t
      rw [leafDfs]
      have hs := MerkleTreeNode.mk.sizeOf_spec p ty ex ch cs
      by_cases hcond : (ty = TreeNodeType.file && !ex) = true
      · rw [if_pos hcond]
        exact ih.2 cs _ (by omega) (assocSet_keys m _ _ hm)
      · rw [if_neg hcond]
        exact ih.2 cs m (by omega) hm
    · intro cs m hcs hm
      cases cs with
      | nil => rw [leafDfsList]; exact hm
      | cons c rest =>
        have hs := List.cons.sizeOf_spec c rest
        rw [leafDfsList]
        by_cases hc : c.excluded = true
        · rw [if_pos hc]
          exact ih.2 rest m (by omega) hm
        · rw [if_neg hc]
          exact ih.2 rest _ (by omega) (ih.1 c m (by omega) hm)

lemma leafDfs_assocGet_bound : ∀ n : Nat,
    (∀ (t : MerkleTreeNode) (m : List (String × MerkleTreeNode))
      (k : String), sizeOf t < n →
      assocGet (leafDfs m t) k =
        (((fileVisitOrder t).filter (fun x => x.hashD = k)).getLast?).or
          (assocGet m k))
  ∧ (∀ (cs : List MerkleTreeNode) (m : List (String × MerkleTreeNode))
      (k : String), sizeOf cs < n →
      assocGet (leafDfsList m cs) k =
        (((fileVisitOrderList cs).filter
          (fun x => x.hashD = k)).getLast?).or (assocGet m k)) := by
  intro n
  induction n with
  | zero =>
    exact ⟨fun t m k ht => absurd ht (Nat.not_lt_zero _),
      fun cs m k hcs => absurd hcs (Nat.not_lt_zero _)⟩
  | succ n ih =>
    constructor
    · intro t m k ht
      obtain ⟨p, ty, ex, ch, cs⟩ := t
      rw [leafDfs, fileVisitOrder]
      have hs := MerkleTreeNode.mk.sizeOf_spec p ty ex ch cs
      rw [List.filter_append, List.getLast?_append]
      by_cases hcond : (ty = TreeNodeType.file && !ex) = true
      · rw [if_pos hcond, if_pos hcond, ih.2 cs _ k (by omega),
          Option.or_assoc]
        congr 1
        by_cases hk : (MerkleTreeNode.mk p ty ex ch cs).hashD = k
        · rw [hk, assocGet_assocSet_self]
          rw [show (List.filter (fun x => x.hashD = k)
              [MerkleTreeNode.mk p ty ex ch cs]) =
              [MerkleTreeNode.mk p ty ex ch cs] from by
            rw [List.filter_cons, if_pos (by simp [hk])]
            rfl]
          rfl
        · rw [assocGet_assocSet_ne _ _ _ _ (fun hh => hk hh.symm)]
          rw [show (List.filter (fun x => x.hashD = k)
              [MerkleTreeNode.mk p ty ex ch cs]) = [] from by
            rw [List.filter_cons, if_neg (by simp [hk])]
            rfl]
          rfl
      · rw [if_neg hcond, if_neg hcond, ih.2 cs m k (by omega)]
        simp
    · intro cs m k hcs
      cases cs with
      | nil =>
        rw [leafDfsList, fileVisitOrderList]
        rfl
      | cons c rest =>
        have hs := List.cons.sizeOf_spec c rest
        rw [leafDfsList, fileVisitOrderList, List.filter_append,
          List.getLast?_append, ih.2 rest _ k (by omega), Option.or_assoc]
        congr 1
        by_cases hc : c.excluded = true
        · rw [if_pos hc, if_pos hc]
          rfl
        · rw [if_neg hc, if_neg hc, ih.1 c m k (by omega)]

lemma toLeafNodesMap_assocGet (t : MerkleTreeNode) (k : String) :
    assocGet (toLeafNodesMap t) k =
      ((fileVisitOrder t).filter (fun x => x.hashD = k)).getLast? := by
  rw [toLeafNodesMap,
    (leafDfs_assocGet_bound (sizeOf t + 1)).1 t [] k (Nat.lt_succ_self _)]
  exact Option.or_none

lemma toLeafNodesMap_entry_hash (t : MerkleTreeNode) (k : String)
    (x : MerkleTreeNode) (h : assocGet (toLeafNodesMap t) k = some x) :
    x.hashD = k := by
  rw [toLeafNodesMap_assocGet] at h
  have hx := List.mem_of_mem_getLast? h
  simpa using (List.mem_filter.mp hx).2

lemma filterMap_assocGet_none (M : List (String × MerkleTreeNode))
    (hM : ∀ k x, assocGet M k = some x → x.hashD = k) (h : String) :
    ∀ l : List String, (∀ b ∈ l, b ≠ h) →
      ((l.filterMap (fun k => assocGet M k)).filter
        (fun x => x.hashD = h)) = [] := by
  intro l
  induction l with
  | nil => intro _; rfl
  | cons b rest ih =>
    intro hb
    rw [List.filterMap_cons]
    cases hgb : assocGet M b with
    | none => exact ih (fun b2 hb2 => hb b2 (List.mem_cons_of_mem _ hb2))
    | some y =>
      rw [List.filter_cons, if_neg (by
        simp only [decide_eq_true_eq]
        rw [hM b y hgb]
        exact hb b (List.mem_cons_self _ _))]
      exact ih (fun b2 hb2 => hb b2 (List.mem_cons_of_mem _ hb2))

lemma filterMap_assocGet_unique (M : List (String × MerkleTreeNode))
    (hM : ∀ k x, assocGet M k = some x → x.hashD = k) (h : String) :
    ∀ l : List String, l.Nodup →
      ((l.filterMap (fun k => assocGet M k)).filter
        (fun x => x.hashD = h)).length ≤ 1 := by
  intro l
  induction l with
  | nil => intro _; simp
  | cons b rest ih =>
    intro hnd
    rw [List.nodup_cons] at hnd
    rw [List.filterMap_cons]
    cases hgb : assocGet M b with
    | none => exact ih hnd.2
    | some y =>
      rw [List.filter_cons]
      by_cases hy : y.hashD = h
      · rw [if_pos (by simp [hy])]
        have hbh : b = h := by rw [← hM b y hgb, hy]
        have hrest : ((rest.filterMap (fun k => assocGet M k)).filter
            (fun x => x.hashD = h)) = [] := by
          apply filterMap_assocGet_none M hM h rest
          intro b2 hb2 hcontr
          exact hnd.1 (by rw [hbh, ← hcontr]; exact hb2)
        rw [List.length_cons, hrest]
        rfl
      · rw [if_neg (by simp [hy])]
        exact ih hnd.2

/-- C10: the leaf-hash map binds each content hash to at most one node —
its keys are distinct, and the bound node is the last non-excluded file with
that hash in dfs order (later visits overwrite earlier ones) — so
`retrieveDivergingFiles` yields at most one node per reported diverging hash
even when several local files share identical content. -/
theorem c10_leaf_map_at_most_one (t : MerkleTreeNode) :
    ((toLeafNodesMap t).map Prod.fst).Nodup
  ∧ (∀ k, assocGet (toLeafNodesMap t) k =
      ((fileVisitOrder t).filter (fun x => x.hashD = k)).getLast?)
  ∧ (∀ (st : WorkspaceSyncState) (now : Int) (forceIndex : Bool)
      (remote : CodebaseSyncStatus), remote.diverging_files.Nodup →
      ∀ h, (((retrieveDivergingFiles st now forceIndex t remote).yielded).filter
        (fun x => x.hashD = h)).length ≤ 1) := by
  refine ⟨?_, toLeafNodesMap_assocGet t, ?_⟩
  · rw [toLeafNodesMap]
    exact (leafDfs_keys_bound (sizeOf t + 1)).1 t [] (Nat.lt_succ_self _)
      List.nodup_nil
  · intro st now forceIndex remote hnd h
    rw [retrieveDivergingFiles]
    by_cases hguard : (!canSync st now && !forceIndex) = true
    · rw [if_pos hguard]
      simp
    · rw [if_neg hguard]
      by_cases hs : remote.synced
      · rw [if_pos hs]
        simp
      · rw [if_neg hs]
        exact filterMap_assocGet_unique (toLeafNodesMap t)
          (toLeafNodesMap_entry_hash t) h remote.diverging_files hnd

/-- Witness for C10: two files with identical content (hash `"h1"`); the
map binds `"h1"` to the later-visited node, and the sync client yields at
most one node for the reported hash. -/
theorem c10_leaf_map_at_most_one_witness :
    assocGet (toLeafNodesMap (.mk "file:///w" .dir false (some "r")
        [.mk "file:///w/a" .file false (some "h1") [],
         .mk "file:///w/b" .file false (some "h1") []])) "h1" =
      some (.mk "file:///w/b" .file false (some "h1") [])
  ∧ (((retrieveDivergingFiles ⟨some "id", "branch", none⟩ 0 false
        (.mk "file:///w" .dir false (some "r")
          [.mk "file:///w/a" .file false (some "h1") [],
           .mk "file:///w/b" .file false (some "h1") []])
        ⟨["h1"], false⟩).yielded).filter
      (fun x => x.hashD = "h1")).length ≤ 1 := by
  constructor
  · rw [(c10_leaf_map_at_most_one (.mk "file:///w" .dir false (some "r")
        [.mk "file:///w/a" .file false (some "h1") [],
         .mk "file:///w/b" .file false (some "h1") []])).2.1 "h1"]
    rfl
  · exact (c10_leaf_map_at_most_one (.mk "file:///w" .dir false (some "r")
        [.mk "file:///w/a" .file false (some "h1") [],
         .mk "file:///w/b" .file false (some "h1") []])).2.2
      ⟨some "id", "branch", none⟩ 0 false ⟨["h1"], false⟩
      (List.nodup_singleton "h1") "h1"

/-! ## Claim C7: `buildHashes` is independent of child insertion order -/

lemma wfTreeList_mem {cs : List MerkleTreeNode} (h : WFTreeList cs = true) :
    ∀ c ∈ cs, WFTree c = true := by
  induction cs with
  | nil => intro c hc; cases hc
  | cons a rest ih =>
    rw [WFTreeList, Bool.and_eq_true] at h
    intro c hc
    rcases List.mem_cons.mp hc with rfl | hc'
    · exact h.1
    · exact ih h.2 c hc'

lemma path_buildHashes (fs : String → Option String) (H : String → String)
    (t : MerkleTreeNode) : (buildHashes fs H t).path = t.path := by
  obtain ⟨p, ty, ex, ch, cs⟩ := t
  cases ty with
  | file =>
    cases hfp : fs p with
    | none =>
      rw [show buildHashes fs H (.mk p .file ex ch cs) =
        .mk p .file true ch cs by rw [buildHashes, hfp]]
      rfl
    | some h =>
      rw [show buildHashes fs H (.mk p .file ex ch cs) =
        .mk p .file ex (some h) cs by rw [buildHashes, hfp]]
      rfl
  | dir =>
    rw [buildHashes_dir]
    rfl

lemma eq_of_perm_sorted_nodup :
    ∀ (l1 l2 : List MerkleTreeNode), l1.Perm l2 →
      l1.Sorted pathLe → l2.Sorted pathLe →
      (l1.map MerkleTreeNode.path).Nodup → l1 = l2 := by
  intro l1
  induction l1 with
  | nil =>
    intro l2 hp _ _ _
    exact (hp.symm.eq_nil).symm
  | cons a t1 ih =>
    intro l2 hp hs1 hs2 hnd
    cases l2 with
    | nil => exact absurd hp.eq_nil (by simp)
    | cons b t2 =>
      by_cases hab : a = b
      · subst hab
        rw [ih t2 hp.cons_inv hs1.of_cons hs2.of_cons
          (by rw [List.map_cons] at hnd; exact hnd.of_cons)]
      · exfalso
        have hbmem : b ∈ a :: t1 := hp.mem_iff.mpr (List.mem_cons_self b t2)
        have hamem : a ∈ b :: t2 := hp.mem_iff.mp (List.mem_cons_self a t1)
        have hb1 : b ∈ t1 := by
          rcases List.mem_cons.mp hbmem with h | h
          · exact absurd h.symm hab
          · exact h
        have ha2 : a ∈ t2 := by
          rcases List.mem_cons.mp hamem with h | h
          · exact absurd h hab
          · exact h
        have h1 : pathLe a b := List.rel_of_sorted_cons hs1 b hb1
        have h2 : pathLe b a := List.rel_of_sorted_cons hs2 a ha2
        have heq : a.path = b.path := le_antisymm h1 h2
        rw [List.map_cons, List.nodup_cons] at hnd
        have hmem2 : a.path ∈ t1.map MerkleTreeNode.path := by
          rw [heq]
          exact List.mem_map_of_mem _ hb1
        exact hnd.1 hmem2

lemma sortChildren_eq_of_perm (l1 l2 : List MerkleTreeNode)
    (hp : l1.Perm l2) (hnd : (l1.map MerkleTreeNode.path).Nodup) :
    sortChildren l1 = sortChildren l2 := by
  have hchain : (sortChildren l1).Perm (sortChildren l2) :=
    (List.perm_insertionSort pathLe l1).trans
      (hp.trans (List.perm_insertionSort pathLe l2).symm)
  have hnd1 : ((sortChildren l1).map MerkleTreeNode.path).Nodup :=
    (List.Perm.nodup_iff
      ((List.perm_insertionSort pathLe l1).map MerkleTreeNode.path)).mpr hnd
  exact eq_of_perm_sorted_nodup _ _ hchain
    (List.sorted_insertionSort pathLe l1)
    (List.sorted_insertionSort pathLe l2) hnd1

lemma reordAll_map_eq (f : MerkleTreeNode → MerkleTreeNode) :
    ∀ (cs mid : List MerkleTreeNode), ReordAll cs mid →
      (∀ c ∈ cs, ∀ d, Reord c d → f c = f d) →
      cs.map f = mid.map f := by
  intro cs
  induction cs with
  | nil =>
    intro mid hall _
    cases hall
    rfl
  | cons a rest ih =>
    intro mid hall hf
    cases hall with
    | cons hcd hrest =>
      rw [List.map_cons, List.map_cons,
        hf a (List.mem_cons_self _ _) _ hcd,
        ih _ hrest (fun c hc d hr => hf c (List.mem_cons_of_mem _ hc) d hr)]

lemma buildHashes_reord_bound (fs : String → Option String)
    (H : String → String) : ∀ n : Nat,
    ∀ t1 t2 : MerkleTreeNode, sizeOf t1 < n → Reord t1 t2 →
      WFTree t1 = true → buildHashes fs H t1 = buildHashes fs H t2 := by
  intro n
  induction n with
  | zero => exact fun t1 t2 ht => absurd ht (Nat.not_lt_zero _)
  | succ n ih =>
    intro t1 t2 ht hr hwf
    cases hr with
    | mk p ty ex ch cs1 mid cs2 hall hperm =>
      have hs := MerkleTreeNode.mk.sizeOf_spec p ty ex ch cs1
      cases ty with
      | file =>
        have hcs1 : cs1 = [] := by
          cases cs1 with
          | nil => rfl
          | cons c rest => rw [WFTree] at hwf; cases hwf
        subst hcs1
        have hmid : mid = [] := by cases hall; rfl
        subst hmid
        have hcs2 : cs2 = [] := hperm.symm.eq_nil
        subst hcs2
        rfl
      | dir =>
        rw [WFTree, Bool.and_eq_true] at hwf
        have hnd : (cs1.map MerkleTreeNode.path).Nodup := by
          have := hwf.1
          simpa using this
        have hwfl : WFTreeList cs1 = true := hwf.2
        have hmapeq : cs1.map (buildHashes fs H) =
            mid.map (buildHashes fs H) := by
          apply reordAll_map_eq _ _ _ hall
          intro c hc d hrcd
          have hsize : sizeOf c < n := by
            have h1 := List.sizeOf_lt_of_mem hc
            omega
          exact ih c d hsize hrcd (wfTreeList_mem hwfl c hc)
        have hperm2 : (cs1.map (buildHashes fs H)).Perm
            (cs2.map (buildHashes fs H)) := by
          rw [hmapeq]
          exact hperm.map _
        have hndf : ((cs1.map (buildHashes fs H)).map
            MerkleTreeNode.path).Nodup := by
          have hmm : (cs1.map (buildHashes fs H)).map MerkleTreeNode.path =
              cs1.map MerkleTreeNode.path := by
            rw [List.map_map]
            exact List.map_congr_left (fun c _ => path_buildHashes fs H c)
          rw [hmm]
          exact hnd
        rw [buildHashes_dir, buildHashes_dir,
          sortChildren_eq_of_perm _ _ hperm2 hndf]

lemma reord_refl_bound : ∀ n : Nat,
    (∀ t : MerkleTreeNode, sizeOf t < n → Reord t t)
  ∧ (∀ cs : List MerkleTreeNode, sizeOf cs < n → ReordAll cs cs) := by
  intro n
  induction n with
  | zero =>
    exact ⟨fun t ht => absurd ht (Nat.not_lt_zero _),
      fun cs hcs => absurd hcs (Nat.not_lt_zero _)⟩
  | succ n ih =>
    constructor
    · intro t ht
      obtain ⟨p, ty, ex, ch, cs⟩ := t
      have hs := MerkleTreeNode.mk.sizeOf_spec p ty ex ch cs
      exact Reord.mk p ty ex ch cs cs cs (ih.2 cs (by omega)) (List.Perm.refl cs)
    · intro cs hcs
      cases cs with
      | nil => exact ReordAll.nil
      | cons c rest =>
        have hs := List.cons.sizeOf_spec c rest
        exact ReordAll.cons (ih.1 c (by omega)) (ih.2 rest (by omega))

/-- Reflexivity of `Reord` (used to build concrete reorder witnesses). -/
lemma reord_refl (t : MerkleTreeNode) : Reord t t :=
  (reord_refl_bound (sizeOf t + 1)).1 t (Nat.lt_succ_self _)

/-- C7: on well-formed walker output (file nodes childless, sibling paths
distinct), `buildHashes` produces identical results — in particular the same
root hash — for any two trees that differ only in the insertion order of
children, because each directory sorts its children by path before folding
them into its digest; and a directory's hash is the digest of its own path
plus its sorted non-excluded children's (path, hash) pairs. -/
theorem c7_buildHashes_deterministic (fs : String → Option String)
    (H : String → String) (t1 t2 : MerkleTreeNode) (hr : Reord t1 t2)
    (hwf : WFTree t1 = true) :
    buildHashes fs H t1 = buildHashes fs H t2
  ∧ (buildHashes fs H t1).hashD = (buildHashes fs H t2).hashD
  ∧ (∀ p ex ch cs, (buildHashes fs H (.mk p .dir ex ch cs)).calculatedHash
      = some (H (dirHashInput p
          (sortChildren (cs.map (buildHashes fs H)))))) := by
  have heq := buildHashes_reord_bound fs H (sizeOf t1 + 1) t1 t2
    (Nat.lt_succ_self _) hr hwf
  refine ⟨heq, by rw [heq], ?_⟩
  intro p ex ch cs
  rw [buildHashes_dir]
  rfl

/-- Witness for C7: the same two-file directory walked in both child
orders hashes identically. -/
theorem c7_buildHashes_deterministic_witness :
    buildHashes (fun _ => some "h") (fun s => s)
      (.mk "file:///w" .dir false none
        [.mk "file:///w/a" .file false none [],
         .mk "file:///w/b" .file false none []]) =
    buildHashes (fun _ => some "h") (fun s => s)
      (.mk "file:///w" .dir false none
        [.mk "file:///w/b" .file false none [],
         .mk "file:///w/a" .file false none []]) :=
  (c7_buildHashes_deterministic (fun _ => some "h") (fun s => s) _ _
    (Reord.mk "file:///w" .dir false none _ _ _
      (ReordAll.cons (reord_refl _)
        (ReordAll.cons (reord_refl _) ReordAll.nil))
      (List.Perm.swap (.mk "file:///w/b" .file false none [])
        (.mk "file:///w/a" .file false none []) []))
    (by decide)).1
